import Mathlib

/-!
Verification of the checkers rules engine and search engine of `Checkers.py`.

The board and rules engine is shallowly embedded: Python's duck-typed cell
values ("white"/"WHITE"/"black"/"BLACK"/None) become an `Option Piece` with an
explicit `{color, king}` tagged pair (uppercase = king).  A board is a total
function from the 64 squares to cells; Python's copy-then-mutate style in
`simulate_move` becomes functional update.  Coordinates are unbounded
integers, as in Python; `board[r][c]` accesses are modelled by `getCell`,
which yields `none` outside `0 ≤ r,c < 8` (every in-source access is either
bounds-checked by `is_within_board` first or reached only with in-range
coordinates).  Fallible operations return `Option`: a `none` result models a
raised Python exception (`None.isupper()` / `None.upper()` on an empty cell).
The recursion of `possible_moves` over capture chains is driven by an
explicit fuel parameter; fuel exhaustion is also mapped to `none`, and the
theorem `possible_moves_isSome_of_occupied` shows that with fuel above 64 the
fuel never runs out (each chained jump removes one opponent piece and a board
holds at most 64 of them), so for such fuel `none` means exactly that the
Python code raises.
-/

/-- The two sides.  The source uses the strings "white" (AI side, moving
towards row 0) and "black" (human side, moving towards row 7). -/
inductive Color where
  | white : Color
  | black : Color
deriving DecidableEq

/-- The opposing side. -/
def Color.opp : Color → Color
  | Color.white => Color.black
  | Color.black => Color.white

/-- A piece: its side and whether it is a king.  In the source a king is the
uppercase variant of the color string ("WHITE"/"BLACK"), tested with
`isupper()` and produced with `upper()`. -/
structure Piece where
  color : Color
  king : Bool
deriving DecidableEq

/-- A cell of the board: `none` is `EMPTY` in the source. -/
abbrev Cell := Option Piece

/-- An 8×8 board (the source's `board` 2D list). -/
abbrev Board := Fin 8 → Fin 8 → Cell

/-- `is_within_board(row, col)`: `0 <= row < BOARD_SIZE and 0 <= col < BOARD_SIZE`. -/
def is_within_board (row col : Int) : Bool :=
  decide (0 ≤ row) && decide (row < 8) && decide (0 ≤ col) && decide (col < 8)

/-- Read `board[r][c]` for integer coordinates; `none` outside the board.
All in-source reads happen with in-range coordinates (bounds-checked via
`is_within_board`, or on loop indices ranging over 0..7). -/
def getCell (b : Board) (r c : Int) : Cell :=
  if h : 0 ≤ r ∧ r < 8 ∧ 0 ≤ c ∧ c < 8 then
    b ⟨r.toNat, by omega⟩ ⟨c.toNat, by omega⟩
  else none

/-- Write `board[r][c] = v` for integer coordinates (no-op outside the board;
all in-source writes happen with in-range coordinates). -/
def setCell (b : Board) (r c : Int) (v : Cell) : Board :=
  fun i j => if (i.val : Int) = r ∧ (j.val : Int) = c then v else b i j

/-- The final promotion check of `simulate_move` (lines 384-386): a cell equal
to the lowercase string `WHITE` (i.e. a white man) on row 0, or a black man on
row `BOARD_SIZE - 1 = 7`, is replaced by its `upper()` (king) variant. -/
def promoStep (b : Board) (end_row end_col : Int) : Board :=
  match getCell b end_row end_col with
  | some p =>
    if p.king = false ∧ ((end_row = 0 ∧ p.color = Color.white) ∨ (end_row = 7 ∧ p.color = Color.black)) then
      setCell b end_row end_col (some (Piece.mk p.color true))
    else b
  | none => b

/-- `simulate_move(board, start_row, start_col, end_row, end_col, is_capture)`.
Copies the board, moves the piece, and on a capture clears the midpoint
(Python floor division `//` agrees with `Int` division, which is Euclidean
division, for the positive divisor 2), promoting the capturing piece if the
captured piece was a king; finally
applies the back-row promotion check.  `none` models the exceptions raised on
an empty midpoint (`None.isupper()`) or an empty end cell (`None.upper()`). -/
def simulate_move (board : Board) (start_row start_col end_row end_col : Int)
    (is_capture : Bool) : Option Board :=
  let b1 := setCell board end_row end_col (getCell board start_row start_col)
  let b2 := setCell b1 start_row start_col none
  if is_capture then
    let mid_row := (start_row + end_row) / 2
    let mid_col := (start_col + end_col) / 2
    match getCell board mid_row mid_col with
    | none => none
    | some captured_piece =>
      let b3 := setCell b2 mid_row mid_col none
      if captured_piece.king then
        match getCell b3 end_row end_col with
        | none => none
        | some p =>
          some (promoStep (setCell b3 end_row end_col (some (Piece.mk p.color true))) end_row end_col)
      else
        some (promoStep b3 end_row end_col)
  else
    some (promoStep b2 end_row end_col)

/-- A generated move: `((row, col), (new_row, new_col), resulting_board)`. -/
abbrev Move := (Int × Int) × (Int × Int) × Board

/-- One direction body of the `for dr, dc in directions` loop of
`possible_moves` (lines 335-349), returning this direction's contribution
`(capture_moves, normal_moves)`.  `recur` is the chained recursive call
`possible_moves(temp_board, player_color, jump_row, jump_col, True)`. -/
def pmDir (recur : Board → Int → Int → Option (List Move)) (board : Board)
    (player_color : Color) (row col : Int) (is_chaining : Bool) (dr dc : Int) :
    Option (List Move × List Move) :=
  let new_row := row + dr
  let new_col := col + dc
  if is_within_board new_row new_col then
    match getCell board new_row new_col with
    | none =>
      if is_chaining = false then
        match simulate_move board row col new_row new_col false with
        | none => none
        | some nb => some ([], [((row, col), (new_row, new_col), nb)])
      else some ([], [])
    | some q =>
      if q.color = player_color then some ([], [])
      else
        let jump_row := new_row + dr
        let jump_col := new_col + dc
        if is_within_board jump_row jump_col ∧ getCell board jump_row jump_col = none then
          match simulate_move board row col jump_row jump_col true with
          | none => none
          | some temp_board =>
            match recur temp_board jump_row jump_col with
            | none => none
            | some further_jumps =>
              some (((row, col), (jump_row, jump_col), temp_board) :: further_jumps, [])
        else some ([], [])
  else some ([], [])

/-- The whole direction loop of `possible_moves`, accumulating per-direction
contributions in order. -/
def pmLoop (recur : Board → Int → Int → Option (List Move)) (board : Board)
    (player_color : Color) (row col : Int) (is_chaining : Bool) :
    List (Int × Int) → Option (List Move × List Move)
  | [] => some ([], [])
  | (dr, dc) :: rest =>
    match pmDir recur board player_color row col is_chaining dr dc with
    | none => none
    | some hd =>
      match pmLoop recur board player_color row col is_chaining rest with
      | none => none
      | some tl => some (hd.1 ++ tl.1, hd.2 ++ tl.2)

/-- `possible_moves(board, player_color, row, col, is_chaining)` (lines
313-353).  Kings use all four diagonals, a white man the two upward ones, a
black man the two downward ones; a chained call returns only capture moves,
otherwise `capture_moves + normal_moves` is returned.  The first `none` case
models the `AttributeError` of `board[row][col].isupper()` on an empty (or
out-of-board) cell; the trailing `Nat` is recursion fuel. -/
def possible_moves : Board → Color → Int → Int → Bool → Nat → Option (List Move)
  | _, _, _, _, _, 0 => none
  | board, player_color, row, col, is_chaining, fuel + 1 =>
    match getCell board row col with
    | none => none
    | some piece =>
      let directions : List (Int × Int) :=
        if piece.king then [(-1, -1), (-1, 1), (1, -1), (1, 1)]
        else if player_color = Color.white then [(-1, -1), (-1, 1)]
        else [(1, -1), (1, 1)]
      match pmLoop (fun b2 r2 c2 => possible_moves b2 player_color r2 c2 true fuel)
          board player_color row col is_chaining directions with
      | none => none
      | some acc => if is_chaining then some acc.1 else some (acc.1 ++ acc.2)

/-- Row-major list of all 64 board coordinates, the iteration order of
`generate_moves_for_color` (and of `evaluate_board`). -/
def coordList : List (Int × Int) :=
  (List.range 8).foldr
    (fun r acc => ((List.range 8).map (fun c => ((r : Int), (c : Int)))) ++ acc) []

/-- The cell scan of `generate_moves_for_color` over a list of coordinates:
`if board[row][col] == color or board[row][col] == color.upper()` collects
`possible_moves(board, color, row, col)`. -/
def gmLoop (fuel : Nat) (board : Board) (color : Color) :
    List (Int × Int) → Option (List Move)
  | [] => some []
  | (r, c) :: rest =>
    match getCell board r c with
    | some p =>
      if p.color = color then
        match possible_moves board color r c false fuel with
        | none => none
        | some piece_moves =>
          match gmLoop fuel board color rest with
          | none => none
          | some tail => some (piece_moves ++ tail)
      else gmLoop fuel board color rest
    | none => gmLoop fuel board color rest

/-- `generate_moves_for_color(board, color)` (lines 602-622): all moves of all
pieces of `color`, scanned in row-major order. -/
def generate_moves_for_color (fuel : Nat) (board : Board) (color : Color) :
    Option (List Move) :=
  gmLoop fuel board color coordList

/-- Per-cell contribution of `evaluate_board`: +1 white man, +2 white king,
-1 black man, -2 black king. -/
def cellScore : Cell → Int
  | none => 0
  | some (Piece.mk Color.white false) => 1
  | some (Piece.mk Color.white true) => 2
  | some (Piece.mk Color.black false) => -1
  | some (Piece.mk Color.black true) => -2

/-- `evaluate_board(board)` (lines 546-570): material count over all cells. -/
def evaluate_board (b : Board) : Int :=
  coordList.foldl (fun acc rc => acc + cellScore (getCell b rc.1 rc.2)) 0

/-- Scores in the search: `evaluate_board` integers together with Python's
`float('-inf')` / `float('inf')` sentinels. -/
inductive Score where
  | negInf : Score
  | val : Int → Score
  | posInf : Score
deriving DecidableEq

/-- The `<=` comparison on scores (Python float comparison, with the two
infinities below/above every integer). -/
def Score.ble : Score → Score → Bool
  | Score.negInf, _ => true
  | Score.val _, Score.negInf => false
  | Score.val a, Score.val b => decide (a ≤ b)
  | Score.val _, Score.posInf => true
  | Score.posInf, Score.negInf => false
  | Score.posInf, Score.val _ => false
  | Score.posInf, Score.posInf => true

/-- Python `a > b` on scores. -/
def Score.bgt (a b : Score) : Bool := !Score.ble a b

/-- Python `max(a, b)` (returns `a` when equal). -/
def Score.max (a b : Score) : Score := if Score.ble b a then a else b

/-- Python `min(a, b)` (returns `a` when equal). -/
def Score.min (a b : Score) : Score := if Score.ble a b then a else b

/-- The maximizing loop of `minimax` (lines 527-535): `max_eval`/`alpha`
accumulate, `beta` is fixed, and the loop breaks once `beta <= alpha`,
returning `max_eval`.  `recur` is `minimax(child, depth-1, alpha, beta, False)`. -/
def mmLoopMax (recur : Board → Score → Score → Option Score) (beta : Score) :
    List Move → Score → Score → Option Score
  | [], max_ev, _ => some max_ev
  | (_, _, child) :: rest, max_ev, alpha =>
    match recur child alpha beta with
    | none => none
    | some ev =>
      let max_ev2 := Score.max max_ev ev
      let alpha2 := Score.max alpha ev
      if Score.ble beta alpha2 then some max_ev2
      else mmLoopMax recur beta rest max_ev2 alpha2

/-- The minimizing loop of `minimax` (lines 536-544). -/
def mmLoopMin (recur : Board → Score → Score → Option Score) (alpha : Score) :
    List Move → Score → Score → Option Score
  | [], min_ev, _ => some min_ev
  | (_, _, child) :: rest, min_ev, beta =>
    match recur child alpha beta with
    | none => none
    | some ev =>
      let min_ev2 := Score.min min_ev ev
      let beta2 := Score.min beta ev
      if Score.ble beta2 alpha then some min_ev2
      else mmLoopMin recur alpha rest min_ev2 beta2

/-- `minimax(board, depth, alpha, beta, maximizing_player)` (lines 508-544).
The maximizing side expands `generate_moves_for_ai` (white), the minimizing
side `generate_moves_for_player` (black). -/
def minimax (fuel : Nat) : Nat → Board → Score → Score → Bool → Option Score
  | 0, b, _, _, _ => some (Score.val (evaluate_board b))
  | d + 1, b, alpha, beta, maximizing_player =>
    if maximizing_player then
      match generate_moves_for_color fuel b Color.white with
      | none => none
      | some children =>
        mmLoopMax (fun c a2 b2 => minimax fuel d c a2 b2 false) beta children
          Score.negInf alpha
    else
      match generate_moves_for_color fuel b Color.black with
      | none => none
      | some children =>
        mmLoopMin (fun c a2 b2 => minimax fuel d c a2 b2 true) alpha children
          Score.posInf beta

/-- Modelled from the spec: the accumulation loop of a full, unpruned
maximizing minimax layer ("expands `movesForSide`; for each resulting child
board, recursively searches at `depth-1`; tracks the maximum"), with no
alpha/beta window and no cutoff. -/
def umLoopMax (recur : Board → Option Score) : List Move → Score → Option Score
  | [], acc => some acc
  | (_, _, child) :: rest, acc =>
    match recur child with
    | none => none
    | some v => umLoopMax recur rest (Score.max acc v)

/-- Modelled from the spec: the unpruned minimizing loop. -/
def umLoopMin (recur : Board → Option Score) : List Move → Score → Option Score
  | [], acc => some acc
  | (_, _, child) :: rest, acc =>
    match recur child with
    | none => none
    | some v => umLoopMin recur rest (Score.min acc v)

/-- Modelled from the spec (§8, alpha-beta equivalence): a full (unpruned)
minimax over the same game tree — same move generation, same evaluation at
depth 0, maximum/minimum over all children with no pruning. -/
def minimax_full (fuel : Nat) : Nat → Board → Bool → Option Score
  | 0, b, _ => some (Score.val (evaluate_board b))
  | d + 1, b, maximizing_player =>
    if maximizing_player then
      match generate_moves_for_color fuel b Color.white with
      | none => none
      | some children =>
        umLoopMax (fun c => minimax_full fuel d c false) children Score.negInf
    else
      match generate_moves_for_color fuel b Color.black with
      | none => none
      | some children =>
        umLoopMin (fun c => minimax_full fuel d c true) children Score.posInf

/-- The selection loop of `ai_move` (lines 491-497): `score > best_score`
(strictly greater) replaces the current best. -/
def aiLoop (fuel depth : Nat) : List Move → Score → Option Move → Option (Option Move)
  | [], _, best_move => some best_move
  | m :: rest, best_score, best_move =>
    match minimax fuel depth m.2.2 Score.negInf Score.posInf false with
    | none => none
    | some score =>
      if Score.bgt score best_score then aiLoop fuel depth rest score (some m)
      else aiLoop fuel depth rest best_score best_move

/-- `ai_move` (lines 475-506), modelled as the chosen move: the outer `none`
models a raised exception; `some none` is the no-move-applied outcome (either
the empty-move-list "User wins" path, or `best_move` still `None` after the
loop); `some (some m)` means move `m` is applied. -/
def ai_move (fuel : Nat) (b : Board) (depth : Nat) : Option (Option Move) :=
  match generate_moves_for_color fuel b Color.white with
  | none => none
  | some moves =>
    if moves.isEmpty then some none
    else aiLoop fuel depth moves Score.negInf none

/-- Board with a black man at (2,1) and a white man at (3,2): black's man has
both a capture (2,1)→(4,3) and a simple step (2,1)→(3,0) available. -/
def boardB1 : Board := fun r c =>
  match r.val, c.val with
  | 2, 1 => some (Piece.mk Color.black false)
  | 3, 2 => some (Piece.mk Color.white false)
  | _, _ => none

/-- Board with a black man at (1,0) and white men at (2,1) and (4,3): black
can jump to (3,2) and from there jump again to (5,4). -/
def boardB2 : Board := fun r c =>
  match r.val, c.val with
  | 1, 0 => some (Piece.mk Color.black false)
  | 2, 1 => some (Piece.mk Color.white false)
  | 4, 3 => some (Piece.mk Color.white false)
  | _, _ => none

/-- Board with a white man at (2,1) and black men at (1,2) and (1,4): white
jumps (2,1)→(0,3), promotes to king on landing, and from (0,3) a further
backward jump (0,3)→(2,5) over (1,4) is available. -/
def boardB3 : Board := fun r c =>
  match r.val, c.val with
  | 2, 1 => some (Piece.mk Color.white false)
  | 1, 2 => some (Piece.mk Color.black false)
  | 1, 4 => some (Piece.mk Color.black false)
  | _, _ => none

/-- Board with a single black man at (1,2). -/
def boardB5 : Board := fun r c =>
  match r.val, c.val with
  | 1, 2 => some (Piece.mk Color.black false)
  | _, _ => none

/-- Board with a single white man at (1,2). -/
def boardB5w : Board := fun r c =>
  match r.val, c.val with
  | 1, 2 => some (Piece.mk Color.white false)
  | _, _ => none

/-- Board with a white man at (4,3) and black men at (2,1) and (2,5): white's
two simple steps each land on a square black can immediately capture, after
which white has no pieces, so every white move scores -inf at depth 2. -/
def boardB6 : Board := fun r c =>
  match r.val, c.val with
  | 4, 3 => some (Piece.mk Color.white false)
  | 2, 1 => some (Piece.mk Color.black false)
  | 2, 5 => some (Piece.mk Color.black false)
  | _, _ => none

/-- Board with a white man at (5,2) and a black king at (4,3). -/
def boardB8 : Board := fun r c =>
  match r.val, c.val with
  | 5, 2 => some (Piece.mk Color.white false)
  | 4, 3 => some (Piece.mk Color.black true)
  | _, _ => none

/-- The empty board. -/
def boardEmpty : Board := fun _ _ => none

/-- A move is a jump iff its rows are two apart (the test `abs(row - sr) == 2`
used by `move_piece`). -/
def isCaptureMove (m : Move) : Bool := decide ((m.2.1.1 - m.1.1).natAbs = 2)

/-- C1: refuted on the code.  On `boardB1` the black man at (2,1) has a
capture available, yet `generate_moves_for_color` (and `possible_moves` for
that piece) still returns the simple step (2,1)→(3,0) alongside the capture
(2,1)→(4,3): line 353 returns `capture_moves + normal_moves` without any
suppression, so mandatory capture is not enforced by generation. -/
theorem C1_mandatory_capture_not_enforced :
    (generate_moves_for_color 65 boardB1 Color.black).isSome = true ∧
    ((generate_moves_for_color 65 boardB1 Color.black).getD []).any
      (fun m => isCaptureMove m) = true ∧
    ((generate_moves_for_color 65 boardB1 Color.black).getD []).any
      (fun m => !isCaptureMove m) = true ∧
    ((possible_moves boardB1 Color.black 2 1 false 65).getD []).any
      (fun m => isCaptureMove m) = true ∧
    ((possible_moves boardB1 Color.black 2 1 false 65).getD []).any
      (fun m => !isCaptureMove m) = true := by
  decide

/-- C2: refuted on the code.  On `boardB2`, the jump (1,0)→(3,2) lands on a
square from which a further capture (3,2)→(5,4) is available, yet
`possible_moves` returns the terminated shorter chain ((1,0),(3,2)) as its own
entry in addition to the continuation: line 346 unconditionally appends the
single jump before recursing. -/
theorem C2_short_chain_returned :
    ((possible_moves boardB2 Color.black 1 0 false 65).getD []).any
      (fun m => decide (m.1 = ((1 : Int), (0 : Int)) ∧ m.2.1 = ((3 : Int), (2 : Int)))) = true ∧
    ((possible_moves boardB2 Color.black 1 0 false 65).getD []).any
      (fun m => decide (m.1 = ((3 : Int), (2 : Int)) ∧ m.2.1 = ((5 : Int), (4 : Int)))) = true ∧
    (possible_moves boardB2 Color.black 1 0 false 65).isSome = true := by
  decide

/-- C3: refuted on the code.  On `boardB3` the white man jumps (2,1)→(0,3)
and promotes to king the instant the jump ends (the piece in the recorded
resulting board is a king), but the chained continuation from (0,3) then uses
all four king directions (line 330 re-reads the now-uppercase piece), so the
backward jump (0,3)→(2,5) over the black man at (1,4) is generated within the
same promotion turn. -/
theorem C3_backward_jump_in_promotion_turn :
    ((possible_moves boardB3 Color.white 2 1 false 65).getD []).any
      (fun m => decide (m.1 = ((2 : Int), (1 : Int)) ∧ m.2.1 = ((0 : Int), (3 : Int))) &&
        (match getCell m.2.2 0 3 with
         | some p => p.king
         | none => false)) = true ∧
    ((possible_moves boardB3 Color.white 2 1 false 65).getD []).any
      (fun m => decide (m.1 = ((0 : Int), (3 : Int)) ∧ m.2.1 = ((2 : Int), (5 : Int)))) = true := by
  decide

/-- C4, counterexample: querying `possible_moves` on the empty in-range cell
(0,1) of `boardB1` does not produce an empty candidate list — it raises
(`board[row][col].isupper()` on `None`, modelled by `none`). -/
theorem C4_empty_cell_query_raises :
    getCell boardB1 0 1 = none ∧
    (possible_moves boardB1 Color.black 0 1 false 65).isNone = true := by
  decide

/-- C5, counterexample: a black (claim: "Dark") man moved to row 0 is not
promoted — the resulting cell holds a plain black man, because the code
promotes white at row 0 and black at row 7 (lines 384-385). -/
theorem C5_black_man_row0_not_promoted :
    (simulate_move boardB5 1 2 0 1 false).map (fun b => getCell b 0 1)
      = some (some (Piece.mk Color.black false)) := by
  decide

/-- C6, counterexample: on `boardB6` the white move list is non-empty (two
simple steps), yet `ai_move` applies no move: every move's search score is
float('-inf'), `score > best_score` never holds against the initial
`-inf`, and `best_move` stays `None`. -/
theorem C6_no_move_with_nonempty_list :
    (generate_moves_for_color 65 boardB6 Color.white).isSome = true ∧
    ((generate_moves_for_color 65 boardB6 Color.white).getD []).isEmpty = false ∧
    (ai_move 65 boardB6 2).map Option.isNone = some true := by
  decide

/-! ### Basic lemmas about cell reads and writes -/

theorem getCell_of_not_in_range (b : Board) (r c : Int)
    (h : ¬(0 ≤ r ∧ r < 8 ∧ 0 ≤ c ∧ c < 8)) : getCell b r c = none := by
  unfold getCell
  exact dif_neg h

theorem getCell_bounds {b : Board} {r c : Int} {p : Piece}
    (h : getCell b r c = some p) : 0 ≤ r ∧ r < 8 ∧ 0 ≤ c ∧ c < 8 := by
  by_contra hn
  rw [getCell_of_not_in_range b r c hn] at h
  exact Option.noConfusion h

theorem getCell_isSome_bounds {b : Board} {r c : Int}
    (h : (getCell b r c).isSome = true) : 0 ≤ r ∧ r < 8 ∧ 0 ≤ c ∧ c < 8 := by
  obtain ⟨p, hp⟩ := Option.isSome_iff_exists.mp h
  exact getCell_bounds hp

theorem setCell_apply_ne (b : Board) (r c : Int) (v : Cell) (i j : Fin 8)
    (h : ¬((i.val : Int) = r ∧ (j.val : Int) = c)) : setCell b r c v i j = b i j := by
  unfold setCell
  exact if_neg h

theorem getCell_setCell_self (b : Board) (r c : Int) (v : Cell)
    (hr0 : 0 ≤ r) (hr8 : r < 8) (hc0 : 0 ≤ c) (hc8 : c < 8) :
    getCell (setCell b r c v) r c = v := by
  unfold getCell setCell
  rw [dif_pos ⟨hr0, hr8, hc0, hc8⟩]
  have h1 : ((r.toNat : Int)) = r := by omega
  have h2 : ((c.toNat : Int)) = c := by omega
  exact if_pos ⟨h1, h2⟩

theorem getCell_setCell_ne (b : Board) (r c : Int) (v : Cell) (r' c' : Int)
    (h : r' ≠ r ∨ c' ≠ c) :
    getCell (setCell b r c v) r' c' = getCell b r' c' := by
  unfold getCell
  by_cases hin : 0 ≤ r' ∧ r' < 8 ∧ 0 ≤ c' ∧ c' < 8
  · rw [dif_pos hin, dif_pos hin]
    refine setCell_apply_ne b r c v _ _ ?_
    rintro ⟨h1, h2⟩
    have h1' : ((r'.toNat : Int)) = r := h1
    have h2' : ((c'.toNat : Int)) = c := h2
    rcases h with hne | hne
    · exact hne (by omega)
    · exact hne (by omega)
  · rw [dif_neg hin, dif_neg hin]

theorem promoStep_apply_off (b : Board) (er ec : Int) (i j : Fin 8)
    (h : ¬((i.val : Int) = er ∧ (j.val : Int) = ec)) :
    promoStep b er ec i j = b i j := by
  unfold promoStep
  cases hg : getCell b er ec with
  | none => rfl
  | some p =>
    dsimp only
    split
    · exact setCell_apply_ne b er ec _ i j h
    · rfl

theorem getCell_promoStep_ne (b : Board) (er ec r' c' : Int)
    (h : r' ≠ er ∨ c' ≠ ec) :
    getCell (promoStep b er ec) r' c' = getCell b r' c' := by
  unfold promoStep
  cases hg : getCell b er ec with
  | none => rfl
  | some p =>
    dsimp only
    split
    · exact getCell_setCell_ne b er ec _ r' c' h
    · rfl

theorem getCell_promoStep_man (b : Board) (er ec : Int) (co : Color)
    (hg : getCell b er ec = some (Piece.mk co false)) :
    getCell (promoStep b er ec) er ec =
      (if (er = 0 ∧ co = Color.white) ∨ (er = 7 ∧ co = Color.black) then
        some (Piece.mk co true)
      else some (Piece.mk co false)) := by
  obtain ⟨hr0, hr8, hc0, hc8⟩ := getCell_bounds hg
  unfold promoStep
  rw [hg]
  dsimp only
  by_cases hcond : (er = 0 ∧ co = Color.white) ∨ (er = 7 ∧ co = Color.black)
  · rw [if_pos ⟨rfl, hcond⟩, if_pos hcond]
    exact getCell_setCell_self b er ec _ hr0 hr8 hc0 hc8
  · rw [if_neg (fun hc => hcond hc.2), if_neg hcond]
    exact hg

theorem getCell_promoStep_king (b : Board) (er ec : Int) (co : Color)
    (hg : getCell b er ec = some (Piece.mk co true)) :
    getCell (promoStep b er ec) er ec = some (Piece.mk co true) := by
  unfold promoStep
  rw [hg]
  dsimp only
  rw [if_neg]
  · exact hg
  · intro hcon
    exact Bool.noConfusion hcon.1

/-! ### Unfolding lemmas for `simulate_move` -/

theorem simulate_move_false (b : Board) (sr sc er ec : Int) :
    simulate_move b sr sc er ec false =
      some (promoStep (setCell (setCell b er ec (getCell b sr sc)) sr sc none) er ec) := rfl

theorem simulate_move_true (b : Board) (sr sc er ec : Int) :
    simulate_move b sr sc er ec true =
      (match getCell b ((sr + er) / 2) ((sc + ec) / 2) with
       | none => none
       | some cp =>
         if cp.king then
           match getCell (setCell (setCell (setCell b er ec (getCell b sr sc)) sr sc none)
               ((sr + er) / 2) ((sc + ec) / 2) none) er ec with
           | none => none
           | some p =>
             some (promoStep
               (setCell
                 (setCell (setCell (setCell b er ec (getCell b sr sc)) sr sc none)
                   ((sr + er) / 2) ((sc + ec) / 2) none)
                 er ec (some (Piece.mk p.color true))) er ec)
         else
           some (promoStep
             (setCell (setCell (setCell b er ec (getCell b sr sc)) sr sc none)
               ((sr + er) / 2) ((sc + ec) / 2) none) er ec)) := rfl


/-- What `simulate_move` leaves on the destination square: the moved piece,
king-flagged if it already was a king, if the captured piece was a king, or if
the destination row is the piece's promotion row. -/
theorem simulate_move_dest (b : Board) (sr sc er ec : Int) (cap : Bool) (b' : Board)
    (c0 : Color) (k0 : Bool)
    (h : simulate_move b sr sc er ec cap = some b')
    (hor : getCell b sr sc = some (Piece.mk c0 k0))
    (hne : sr ≠ er)
    (hcapgeo : cap = true → er = sr + 2 ∨ er = sr - 2)
    (her0 : 0 ≤ er) (her8 : er < 8) (hec0 : 0 ≤ ec) (hec8 : ec < 8) :
    ∃ k : Bool, getCell b' er ec = some (Piece.mk c0 k) ∧
      (k0 = true → k = true) ∧
      (((er = 0 ∧ c0 = Color.white) ∨ (er = 7 ∧ c0 = Color.black)) → k = true) := by
  have hb2 : getCell (setCell (setCell b er ec (getCell b sr sc)) sr sc none) er ec
      = some (Piece.mk c0 k0) := by
    rw [getCell_setCell_ne _ _ _ _ _ _ (Or.inl (Ne.symm hne)),
      getCell_setCell_self _ _ _ _ her0 her8 hec0 hec8, hor]
  cases cap with
  | false =>
    rw [simulate_move_false] at h
    have hb' := Option.some.inj h
    subst hb'
    cases k0 with
    | false =>
      rw [getCell_promoStep_man _ er ec c0 hb2]
      by_cases hcond : (er = 0 ∧ c0 = Color.white) ∨ (er = 7 ∧ c0 = Color.black)
      · exact ⟨true, by rw [if_pos hcond], fun hk => Bool.noConfusion hk, fun _ => rfl⟩
      · exact ⟨false, by rw [if_neg hcond], fun hk => Bool.noConfusion hk,
          fun hc => absurd hc hcond⟩
    | true =>
      rw [getCell_promoStep_king _ er ec c0 hb2]
      exact ⟨true, rfl, fun _ => rfl, fun _ => rfl⟩
  | true =>
    rw [simulate_move_true] at h
    cases hmid : getCell b ((sr + er) / 2) ((sc + ec) / 2) with
    | none =>
      rw [hmid] at h
      exact Option.noConfusion h
    | some cp =>
      rw [hmid] at h
      dsimp only at h
      have hmidne : (sr + er) / 2 ≠ er := by
        rcases hcapgeo rfl with h2 | h2 <;> omega
      have hb3 : getCell (setCell (setCell (setCell b er ec (getCell b sr sc)) sr sc none)
          ((sr + er) / 2) ((sc + ec) / 2) none) er ec = some (Piece.mk c0 k0) := by
        rw [getCell_setCell_ne _ _ _ _ _ _ (Or.inl (Ne.symm hmidne)), hb2]
      cases hck : cp.king with
      | false =>
        rw [hck, if_neg Bool.false_ne_true] at h
        have hb' := Option.some.inj h
        subst hb'
        cases k0 with
        | false =>
          rw [getCell_promoStep_man _ er ec c0 hb3]
          by_cases hcond : (er = 0 ∧ c0 = Color.white) ∨ (er = 7 ∧ c0 = Color.black)
          · exact ⟨true, by rw [if_pos hcond], fun hk => Bool.noConfusion hk, fun _ => rfl⟩
          · exact ⟨false, by rw [if_neg hcond], fun hk => Bool.noConfusion hk,
              fun hc => absurd hc hcond⟩
        | true =>
          rw [getCell_promoStep_king _ er ec c0 hb3]
          exact ⟨true, rfl, fun _ => rfl, fun _ => rfl⟩
      | true =>
        rw [hck, if_pos rfl, hb3] at h
        dsimp only at h
        have hb' := Option.some.inj h
        subst hb'
        have hset : getCell (setCell (setCell (setCell (setCell b er ec (getCell b sr sc))
            sr sc none) ((sr + er) / 2) ((sc + ec) / 2) none) er ec
            (some (Piece.mk c0 true))) er ec = some (Piece.mk c0 true) :=
          getCell_setCell_self _ er ec _ her0 her8 hec0 hec8
        rw [getCell_promoStep_king _ er ec c0 hset]
        exact ⟨true, rfl, fun _ => rfl, fun _ => rfl⟩

/-- C5 (amended): the promotion rows are row 0 for a white ("Light" in the
spec's naming, but the source promotes *white* there) man and row 7 for a
black man: any `simulate_move` (simple or capture, hence also an intermediate
jump of a chain) that lands a man on its own promotion row leaves a king on
the destination cell.  The claim as frozen has the two sides swapped. -/
theorem C5_promotion_rows (b : Board) (sr sc er ec : Int) (cap : Bool) (b' : Board)
    (co : Color)
    (h : simulate_move b sr sc er ec cap = some b')
    (hor : getCell b sr sc = some (Piece.mk co false))
    (hne : sr ≠ er)
    (hcapgeo : cap = true → er = sr + 2 ∨ er = sr - 2)
    (her0 : 0 ≤ er) (her8 : er < 8) (hec0 : 0 ≤ ec) (hec8 : ec < 8)
    (hrow : (co = Color.white ∧ er = 0) ∨ (co = Color.black ∧ er = 7)) :
    getCell b' er ec = some (Piece.mk co true) := by
  obtain ⟨k, hk, _, hpromo⟩ :=
    simulate_move_dest b sr sc er ec cap b' co false h hor hne hcapgeo her0 her8 hec0 hec8
  have hkt : k = true := by
    apply hpromo
    rcases hrow with ⟨h1, h2⟩ | ⟨h1, h2⟩
    · exact Or.inl ⟨h2, h1⟩
    · exact Or.inr ⟨h2, h1⟩
  rw [hk, hkt]

/-- C5 witness: the white man at (1,2) of `boardB5w` stepping to (0,3) ends up
as a white king at (0,3). -/
theorem C5_promotion_rows_witness :
    getCell ((simulate_move boardB5w 1 2 0 3 false).getD boardEmpty) 0 3
      = some (Piece.mk Color.white true) :=
  C5_promotion_rows boardB5w 1 2 0 3 false
    ((simulate_move boardB5w 1 2 0 3 false).getD boardEmpty) Color.white rfl
    (by decide) (by decide) (by decide) (by decide) (by decide) (by decide) (by decide)
    (Or.inl ⟨rfl, rfl⟩)

/-- C8: on a capture jump `simulate_move` clears the midpoint cell, and if the
captured piece was a king the capturing piece ends up a king regardless of the
destination row; independently of capture, a man ending any move on its back
promotion row (row 0 for white, row 7 for black) becomes a king. -/
theorem C8_capture_effects :
    (∀ (b : Board) (sr sc er ec : Int) (b' : Board) (q : Piece),
        simulate_move b sr sc er ec true = some b' →
        (er = sr + 2 ∨ er = sr - 2) →
        getCell b ((sr + er) / 2) ((sc + ec) / 2) = some q →
        getCell b' ((sr + er) / 2) ((sc + ec) / 2) = none ∧
        (q.king = true → ∃ p' : Piece, getCell b' er ec = some p' ∧ p'.king = true)) ∧
    (∀ (b : Board) (sr sc er ec : Int) (cap : Bool) (b' : Board) (co : Color),
        simulate_move b sr sc er ec cap = some b' →
        getCell b sr sc = some (Piece.mk co false) →
        sr ≠ er →
        (cap = true → er = sr + 2 ∨ er = sr - 2) →
        0 ≤ er → er < 8 → 0 ≤ ec → ec < 8 →
        ((er = 0 ∧ co = Color.white) ∨ (er = 7 ∧ co = Color.black)) →
        ∃ p' : Piece, getCell b' er ec = some p' ∧ p'.king = true) := by
  constructor
  · intro b sr sc er ec b' q h hgeo hm
    have hmidne : (sr + er) / 2 ≠ er := by rcases hgeo with h2 | h2 <;> omega
    have hmidclear : ∀ X : Board,
        getCell (setCell X ((sr + er) / 2) ((sc + ec) / 2) none)
          ((sr + er) / 2) ((sc + ec) / 2) = none := by
      intro X
      by_cases hin : 0 ≤ (sr + er) / 2 ∧ (sr + er) / 2 < 8 ∧
          0 ≤ (sc + ec) / 2 ∧ (sc + ec) / 2 < 8
      · exact getCell_setCell_self X _ _ none hin.1 hin.2.1 hin.2.2.1 hin.2.2.2
      · exact getCell_of_not_in_range _ _ _ hin
    rw [simulate_move_true, hm] at h
    dsimp only at h
    cases hck : q.king with
    | false =>
      rw [hck, if_neg Bool.false_ne_true] at h
      have hb' := Option.some.inj h
      subst hb'
      refine ⟨?_, fun hkk => absurd (hck ▸ hkk) Bool.false_ne_true⟩
      rw [getCell_promoStep_ne _ er ec _ _ (Or.inl hmidne)]
      exact hmidclear _
    | true =>
      rw [hck, if_pos rfl] at h
      cases hb3v : getCell (setCell (setCell (setCell b er ec (getCell b sr sc)) sr sc none)
          ((sr + er) / 2) ((sc + ec) / 2) none) er ec with
      | none =>
        rw [hb3v] at h
        exact Option.noConfusion h
      | some p =>
        rw [hb3v] at h
        dsimp only at h
        have hb' := Option.some.inj h
        subst hb'
        obtain ⟨her0, her8, hec0, hec8⟩ := getCell_bounds hb3v
        constructor
        · rw [getCell_promoStep_ne _ er ec _ _ (Or.inl hmidne),
            getCell_setCell_ne _ _ _ _ _ _ (Or.inl hmidne)]
          exact hmidclear _
        · intro _
          have hset : getCell (setCell (setCell (setCell (setCell b er ec (getCell b sr sc))
              sr sc none) ((sr + er) / 2) ((sc + ec) / 2) none) er ec
              (some (Piece.mk p.color true))) er ec = some (Piece.mk p.color true) :=
            getCell_setCell_self _ er ec _ her0 her8 hec0 hec8
          rw [getCell_promoStep_king _ er ec p.color hset]
          exact ⟨Piece.mk p.color true, rfl, rfl⟩
  · intro b sr sc er ec cap b' co h hor hne hcapgeo her0 her8 hec0 hec8 hrow
    obtain ⟨k, hk, _, hpromo⟩ :=
      simulate_move_dest b sr sc er ec cap b' co false h hor hne hcapgeo her0 her8 hec0 hec8
    have hkt : k = true := hpromo hrow
    rw [hk, hkt]
    exact ⟨Piece.mk co true, rfl, rfl⟩

/-- C8 witness: on `boardB8`, the white man at (5,2) jumping the black king at
(4,3) to (3,4) clears (4,3) and becomes a king although row 3 is not a
promotion row; and the white man of `boardB5w` stepping onto row 0 promotes. -/
theorem C8_capture_effects_witness :
    (getCell ((simulate_move boardB8 5 2 3 4 true).getD boardEmpty)
        ((5 + 3) / 2) ((2 + 4) / 2) = none ∧
      ((Piece.mk Color.black true).king = true → ∃ p' : Piece,
        getCell ((simulate_move boardB8 5 2 3 4 true).getD boardEmpty) 3 4 = some p' ∧
          p'.king = true)) ∧
    (∃ p' : Piece,
      getCell ((simulate_move boardB5w 1 2 0 3 false).getD boardEmpty) 0 3 = some p' ∧
        p'.king = true) :=
  ⟨C8_capture_effects.1 boardB8 5 2 3 4
      ((simulate_move boardB8 5 2 3 4 true).getD boardEmpty) (Piece.mk Color.black true)
      rfl (by decide) (by decide),
   C8_capture_effects.2 boardB5w 1 2 0 3 false
      ((simulate_move boardB5w 1 2 0 3 false).getD boardEmpty) Color.white
      rfl (by decide) (by decide) (by decide) (by decide) (by decide) (by decide) (by decide)
      (Or.inl ⟨rfl, rfl⟩)⟩

/-- C9: `simulate_move` is a pure function of its input board (mutation-free
by construction in this model, matching the per-row copy `[row[:] for row in
board]` of the source, whose cell values are immutable strings), and the
returned board agrees with the input board on every cell other than the
origin, the destination, and — for a capture — the midpoint. -/
theorem C9_simulate_move_frame (b : Board) (sr sc er ec : Int) (cap : Bool) (b' : Board)
    (h : simulate_move b sr sc er ec cap = some b') (i j : Fin 8)
    (hdest : ¬((i.val : Int) = er ∧ (j.val : Int) = ec))
    (horig : ¬((i.val : Int) = sr ∧ (j.val : Int) = sc))
    (hmid : cap = true → ¬((i.val : Int) = (sr + er) / 2 ∧ (j.val : Int) = (sc + ec) / 2)) :
    b' i j = b i j := by
  cases cap with
  | false =>
    rw [simulate_move_false] at h
    have hb' := Option.some.inj h
    subst hb'
    rw [promoStep_apply_off _ er ec i j hdest, setCell_apply_ne _ _ _ _ i j horig,
      setCell_apply_ne _ _ _ _ i j hdest]
  | true =>
    rw [simulate_move_true] at h
    cases hm : getCell b ((sr + er) / 2) ((sc + ec) / 2) with
    | none =>
      rw [hm] at h
      exact Option.noConfusion h
    | some cp =>
      rw [hm] at h
      dsimp only at h
      cases hck : cp.king with
      | false =>
        rw [hck, if_neg Bool.false_ne_true] at h
        have hb' := Option.some.inj h
        subst hb'
        rw [promoStep_apply_off _ er ec i j hdest, setCell_apply_ne _ _ _ _ i j (hmid rfl),
          setCell_apply_ne _ _ _ _ i j horig, setCell_apply_ne _ _ _ _ i j hdest]
      | true =>
        rw [hck, if_pos rfl] at h
        cases hb3v : getCell (setCell (setCell (setCell b er ec (getCell b sr sc)) sr sc none)
            ((sr + er) / 2) ((sc + ec) / 2) none) er ec with
        | none =>
          rw [hb3v] at h
          exact Option.noConfusion h
        | some p =>
          rw [hb3v] at h
          dsimp only at h
          have hb' := Option.some.inj h
          subst hb'
          rw [promoStep_apply_off _ er ec i j hdest, setCell_apply_ne _ _ _ _ i j hdest,
            setCell_apply_ne _ _ _ _ i j (hmid rfl), setCell_apply_ne _ _ _ _ i j horig,
            setCell_apply_ne _ _ _ _ i j hdest]

/-- C9 witness: the capture on `boardB8` leaves the untouched cell (0,1)
exactly as it was. -/
theorem C9_simulate_move_frame_witness :
    (simulate_move boardB8 5 2 3 4 true).getD boardEmpty (0 : Fin 8) (1 : Fin 8)
      = boardB8 (0 : Fin 8) (1 : Fin 8) :=
  C9_simulate_move_frame boardB8 5 2 3 4 true
    ((simulate_move boardB8 5 2 3 4 true).getD boardEmpty) rfl (0 : Fin 8) (1 : Fin 8)
    (by decide) (by decide) (by decide)

/-- C10: at positive depth a side with no legal moves is not evaluated — the
maximizing layer's loop over an empty move list returns the initial
`float('-inf')`, the minimizing layer returns `float('inf')`, regardless of
the board's material (the returned infinities are distinct from every
`evaluate_board` value `Score.val n`). -/
theorem C10_stuck_side_scores :
    (∀ (fuel : Nat) (b : Board) (d : Nat) (alpha beta : Score),
        generate_moves_for_color fuel b Color.white = some [] →
        minimax fuel (d + 1) b alpha beta true = some Score.negInf) ∧
    (∀ (fuel : Nat) (b : Board) (d : Nat) (alpha beta : Score),
        generate_moves_for_color fuel b Color.black = some [] →
        minimax fuel (d + 1) b alpha beta false = some Score.posInf) := by
  constructor
  · intro fuel b d alpha beta hgen
    simp only [minimax, hgen, if_true]
    rfl
  · intro fuel b d alpha beta hgen
    simp only [minimax, hgen, Bool.false_eq_true, if_false]
    rfl

/-- C10 witness: on the empty board both sides are stuck at depth 1. -/
theorem C10_stuck_side_scores_witness :
    minimax 65 (0 + 1) boardEmpty Score.negInf Score.posInf true = some Score.negInf ∧
    minimax 65 (0 + 1) boardEmpty Score.negInf Score.posInf false = some Score.posInf :=
  ⟨C10_stuck_side_scores.1 65 boardEmpty 0 Score.negInf Score.posInf rfl,
   C10_stuck_side_scores.2 65 boardEmpty 0 Score.negInf Score.posInf rfl⟩

/-! ### Counting pieces: each capture removes one opponent piece -/

/-- Contribution of one cell to the count of `col`-colored pieces. -/
def cellCnt : Cell → Color → Nat
  | some p, col => if p.color = col then 1 else 0
  | none, _ => 0

/-- Number of pieces of color `col` on the board. -/
def colorCount (b : Board) (col : Color) : Nat :=
  Finset.sum Finset.univ (fun p : Fin 8 × Fin 8 => cellCnt (b p.1 p.2) col)

theorem is_within_board_eq_true {r c : Int} :
    is_within_board r c = true ↔ (0 ≤ r ∧ r < 8 ∧ 0 ≤ c ∧ c < 8) := by
  unfold is_within_board
  simp only [Bool.and_eq_true, decide_eq_true_eq]
  constructor
  · rintro ⟨⟨⟨h1, h2⟩, h3⟩, h4⟩
    exact ⟨h1, h2, h3, h4⟩
  · rintro ⟨h1, h2, h3, h4⟩
    exact ⟨⟨⟨h1, h2⟩, h3⟩, h4⟩

theorem color_eq_opp_of_ne {a pc : Color} (h : ¬(a = pc)) : a = Color.opp pc := by
  cases a <;> cases pc <;> simp_all [Color.opp]

theorem cellCnt_le_one (cell : Cell) (col : Color) : cellCnt cell col ≤ 1 := by
  cases cell with
  | none => exact Nat.zero_le 1
  | some p =>
    simp only [cellCnt]
    split <;> omega

theorem colorCount_le_64 (b : Board) (col : Color) : colorCount b col ≤ 64 := by
  unfold colorCount
  calc Finset.sum Finset.univ (fun p : Fin 8 × Fin 8 => cellCnt (b p.1 p.2) col)
      ≤ Finset.sum Finset.univ (fun _ : Fin 8 × Fin 8 => 1) :=
        Finset.sum_le_sum (fun p _ => cellCnt_le_one (b p.1 p.2) col)
    _ = 64 := by simp

theorem colorCount_setCell (b : Board) (r c : Int) (v : Cell) (col : Color)
    (hr0 : 0 ≤ r) (hr8 : r < 8) (hc0 : 0 ≤ c) (hc8 : c < 8) :
    colorCount (setCell b r c v) col + cellCnt (getCell b r c) col
      = colorCount b col + cellCnt v col := by
  have hr' : r.toNat < 8 := by omega
  have hc' : c.toNat < 8 := by omega
  have hgc : getCell b r c = b ⟨r.toNat, hr'⟩ ⟨c.toNat, hc'⟩ := by
    unfold getCell
    rw [dif_pos ⟨hr0, hr8, hc0, hc8⟩]
  have hij : ∀ p : Fin 8 × Fin 8, p ≠ (⟨r.toNat, hr'⟩, ⟨c.toNat, hc'⟩) →
      setCell b r c v p.1 p.2 = b p.1 p.2 := by
    intro p hp
    apply setCell_apply_ne
    rintro ⟨h1, h2⟩
    apply hp
    have e1 : p.1 = ⟨r.toNat, hr'⟩ := Fin.ext (show p.1.val = r.toNat by omega)
    have e2 : p.2 = ⟨c.toNat, hc'⟩ := Fin.ext (show p.2.val = c.toNat by omega)
    exact Prod.ext e1 e2
  have hv : setCell b r c v ⟨r.toNat, hr'⟩ ⟨c.toNat, hc'⟩ = v := by
    unfold setCell
    exact if_pos ⟨show ((r.toNat : Int)) = r by omega, show ((c.toNat : Int)) = c by omega⟩
  unfold colorCount
  rw [← Finset.sum_erase_add Finset.univ _
        (Finset.mem_univ ((⟨r.toNat, hr'⟩ : Fin 8), (⟨c.toNat, hc'⟩ : Fin 8))),
      ← Finset.sum_erase_add Finset.univ
        (fun p : Fin 8 × Fin 8 => cellCnt (b p.1 p.2) col)
        (Finset.mem_univ ((⟨r.toNat, hr'⟩ : Fin 8), (⟨c.toNat, hc'⟩ : Fin 8)))]
  rw [Finset.sum_congr rfl
        (fun p hp => by rw [hij p (Finset.ne_of_mem_erase hp)])]
  rw [hv, hgc]
  dsimp only
  omega

theorem colorCount_promoStep (b : Board) (er ec : Int) (col : Color) :
    colorCount (promoStep b er ec) col = colorCount b col := by
  unfold promoStep
  cases hg : getCell b er ec with
  | none => rfl
  | some p =>
    dsimp only
    split
    · obtain ⟨h1, h2, h3, h4⟩ := getCell_bounds hg
      have hs := colorCount_setCell b er ec (some (Piece.mk p.color true)) col h1 h2 h3 h4
      rw [hg] at hs
      have hc : cellCnt (some p) col = cellCnt (some (Piece.mk p.color true)) col := rfl
      omega
    · rfl

theorem cellCnt_none (col : Color) : cellCnt none col = 0 := rfl

/-- A capture jump removes exactly one opponent piece: the board piece count
of the side opposite to `pc` goes down by one. -/
theorem colorCount_capture_lt (b : Board) (pc : Color) (row col dr dc : Int) (q : Piece)
    (temp : Board)
    (hdr : dr = 1 ∨ dr = -1)
    (hor : (getCell b row col).isSome = true)
    (hmidq : getCell b (row + dr) (col + dc) = some q)
    (hqop : ¬(q.color = pc))
    (hdin : is_within_board (row + dr + dr) (col + dc + dc) = true)
    (hdest : getCell b (row + dr + dr) (col + dc + dc) = none)
    (hsim : simulate_move b row col (row + dr + dr) (col + dc + dc) true = some temp) :
    colorCount temp (Color.opp pc) + 1 = colorCount b (Color.opp pc) := by
  obtain ⟨p0, hp0⟩ := Option.isSome_iff_exists.mp hor
  obtain ⟨ho1, ho2, ho3, ho4⟩ := getCell_bounds hp0
  obtain ⟨hm1, hm2, hm3, hm4⟩ := getCell_bounds hmidq
  obtain ⟨hd1, hd2, hd3, hd4⟩ := is_within_board_eq_true.mp hdin
  have hne_od : row ≠ row + dr + dr := by rcases hdr with h | h <;> omega
  have hne_mo : row + dr ≠ row := by rcases hdr with h | h <;> omega
  have hne_md : row + dr ≠ row + dr + dr := by rcases hdr with h | h <;> omega
  have hmr : (row + (row + dr + dr)) / 2 = row + dr := by omega
  have hmc : (col + (col + dc + dc)) / 2 = col + dc := by omega
  rw [simulate_move_true, hmr, hmc, hmidq] at hsim
  dsimp only at hsim
  have hc1 := colorCount_setCell b (row + dr + dr) (col + dc + dc) (getCell b row col)
    (Color.opp pc) hd1 hd2 hd3 hd4
  rw [hdest, cellCnt_none] at hc1
  have hcO : cellCnt (getCell b row col) (Color.opp pc)
      = cellCnt (some p0) (Color.opp pc) := by rw [hp0]
  have hB1or : getCell (setCell b (row + dr + dr) (col + dc + dc) (getCell b row col))
      row col = some p0 := by
    rw [getCell_setCell_ne _ _ _ _ _ _ (Or.inl hne_od), hp0]
  have hc2 := colorCount_setCell
    (setCell b (row + dr + dr) (col + dc + dc) (getCell b row col)) row col none
    (Color.opp pc) ho1 ho2 ho3 ho4
  rw [hB1or, cellCnt_none] at hc2
  have hB2mid : getCell (setCell (setCell b (row + dr + dr) (col + dc + dc)
      (getCell b row col)) row col none) (row + dr) (col + dc) = some q := by
    rw [getCell_setCell_ne _ _ _ _ _ _ (Or.inl hne_mo),
      getCell_setCell_ne _ _ _ _ _ _ (Or.inl hne_md), hmidq]
  have hc3 := colorCount_setCell
    (setCell (setCell b (row + dr + dr) (col + dc + dc) (getCell b row col)) row col none)
    (row + dr) (col + dc) none (Color.opp pc) hm1 hm2 hm3 hm4
  rw [hB2mid, cellCnt_none] at hc3
  have hq1 : cellCnt (some q) (Color.opp pc) = 1 := by
    simp only [cellCnt]
    rw [if_pos (color_eq_opp_of_ne hqop)]
  rw [hq1] at hc3
  cases hqk : q.king with
  | false =>
    rw [hqk, if_neg Bool.false_ne_true] at hsim
    have ht := Option.some.inj hsim
    subst ht
    rw [colorCount_promoStep]
    omega
  | true =>
    rw [hqk, if_pos rfl] at hsim
    have hB3dest : getCell (setCell (setCell (setCell b (row + dr + dr) (col + dc + dc)
        (getCell b row col)) row col none) (row + dr) (col + dc) none)
        (row + dr + dr) (col + dc + dc) = some p0 := by
      rw [getCell_setCell_ne _ _ _ _ _ _ (Or.inl (Ne.symm hne_md)),
        getCell_setCell_ne _ _ _ _ _ _ (Or.inl (Ne.symm hne_od)),
        getCell_setCell_self _ _ _ _ hd1 hd2 hd3 hd4, hp0]
    rw [hB3dest] at hsim
    dsimp only at hsim
    have ht := Option.some.inj hsim
    subst ht
    rw [colorCount_promoStep]
    have hc4 := colorCount_setCell
      (setCell (setCell (setCell b (row + dr + dr) (col + dc + dc) (getCell b row col))
        row col none) (row + dr) (col + dc) none)
      (row + dr + dr) (col + dc + dc) (some (Piece.mk p0.color true))
      (Color.opp pc) hd1 hd2 hd3 hd4
    rw [hB3dest] at hc4
    have hsame : cellCnt (some p0) (Color.opp pc)
        = cellCnt (some (Piece.mk p0.color true)) (Color.opp pc) := rfl
    omega

/-- A capture jump with an occupied midpoint, an occupied origin, and an
in-board landing square never raises. -/
theorem simulate_capture_isSome (b : Board) (row col dr dc : Int) (q p0 : Piece)
    (hdr : dr = 1 ∨ dr = -1)
    (hor : getCell b row col = some p0)
    (hmidq : getCell b (row + dr) (col + dc) = some q)
    (hdin : is_within_board (row + dr + dr) (col + dc + dc) = true) :
    (simulate_move b row col (row + dr + dr) (col + dc + dc) true).isSome = true := by
  obtain ⟨hd1, hd2, hd3, hd4⟩ := is_within_board_eq_true.mp hdin
  have hne_od : row ≠ row + dr + dr := by rcases hdr with h | h <;> omega
  have hne_md : row + dr ≠ row + dr + dr := by rcases hdr with h | h <;> omega
  have hmr : (row + (row + dr + dr)) / 2 = row + dr := by omega
  have hmc : (col + (col + dc + dc)) / 2 = col + dc := by omega
  rw [simulate_move_true, hmr, hmc, hmidq]
  dsimp only
  cases hqk : q.king with
  | false =>
    rw [if_neg Bool.false_ne_true]
    rfl
  | true =>
    rw [if_pos rfl]
    have hB3dest : getCell (setCell (setCell (setCell b (row + dr + dr) (col + dc + dc)
        (getCell b row col)) row col none) (row + dr) (col + dc) none)
        (row + dr + dr) (col + dc + dc) = some p0 := by
      rw [getCell_setCell_ne _ _ _ _ _ _ (Or.inl (Ne.symm hne_md)),
        getCell_setCell_ne _ _ _ _ _ _ (Or.inl (Ne.symm hne_od)),
        getCell_setCell_self _ _ _ _ hd1 hd2 hd3 hd4, hor]
    rw [hB3dest]
    rfl

/-- The per-direction generator never raises when the continuation does not,
the queried cell is occupied, and the opponent piece count is within the
continuation's budget. -/
theorem pmDir_isSome (recur : Board → Int → Int → Option (List Move)) (b : Board)
    (pc : Color) (row col : Int) (chaining : Bool) (dr dc : Int) (fuelRec : Nat)
    (hrec : ∀ (b2 : Board) (r2 c2 : Int), colorCount b2 (Color.opp pc) < fuelRec →
      (getCell b2 r2 c2).isSome = true → (recur b2 r2 c2).isSome = true)
    (hcnt : colorCount b (Color.opp pc) ≤ fuelRec)
    (hor : (getCell b row col).isSome = true)
    (hdr : dr = 1 ∨ dr = -1) :
    (pmDir recur b pc row col chaining dr dc).isSome = true := by
  obtain ⟨p0, hp0⟩ := Option.isSome_iff_exists.mp hor
  unfold pmDir
  dsimp only
  split
  · cases hne : getCell b (row + dr) (col + dc) with
    | none =>
      dsimp only
      split
      · rw [simulate_move_false]
        rfl
      · rfl
    | some q =>
      dsimp only
      split
      · rfl
      · next hqne =>
        split
        · next hjc =>
          obtain ⟨hjin, hjempty⟩ := hjc
          have hsimS := simulate_capture_isSome b row col dr dc q p0 hdr hp0 hne hjin
          obtain ⟨temp, htemp⟩ := Option.isSome_iff_exists.mp hsimS
          rw [htemp]
          dsimp only
          have hcnt2 : colorCount temp (Color.opp pc) < fuelRec := by
            have := colorCount_capture_lt b pc row col dr dc q temp hdr hor hne hqne
              hjin hjempty htemp
            omega
          have hodest : (getCell temp (row + dr + dr) (col + dc + dc)).isSome = true := by
            obtain ⟨hd1, hd2, hd3, hd4⟩ := is_within_board_eq_true.mp hjin
            obtain ⟨k, hk, _, _⟩ := simulate_move_dest b row col (row + dr + dr)
              (col + dc + dc) true temp p0.color p0.king htemp hp0
              (by rcases hdr with h | h <;> omega)
              (fun _ => by rcases hdr with h | h <;> [left; right] <;> omega)
              hd1 hd2 hd3 hd4
            rw [hk]
            rfl
          have hr := hrec temp (row + dr + dr) (col + dc + dc) hcnt2 hodest
          obtain ⟨fj, hfj⟩ := Option.isSome_iff_exists.mp hr
          rw [hfj]
          rfl
        · rfl
  · rfl

theorem pmLoop_isSome (recur : Board → Int → Int → Option (List Move)) (b : Board)
    (pc : Color) (row col : Int) (chaining : Bool) (fuelRec : Nat)
    (hrec : ∀ (b2 : Board) (r2 c2 : Int), colorCount b2 (Color.opp pc) < fuelRec →
      (getCell b2 r2 c2).isSome = true → (recur b2 r2 c2).isSome = true)
    (hcnt : colorCount b (Color.opp pc) ≤ fuelRec)
    (hor : (getCell b row col).isSome = true) :
    ∀ dirs : List (Int × Int), (∀ dd ∈ dirs, dd.1 = 1 ∨ dd.1 = -1) →
      (pmLoop recur b pc row col chaining dirs).isSome = true := by
  intro dirs
  induction dirs with
  | nil => intro _; rfl
  | cons hd rest ih =>
    intro hdirs
    obtain ⟨dr, dc⟩ := hd
    have h1 := pmDir_isSome recur b pc row col chaining dr dc fuelRec hrec hcnt hor
      (hdirs (dr, dc) (List.mem_cons_self _ _))
    obtain ⟨pr, hpr⟩ := Option.isSome_iff_exists.mp h1
    have h2 := ih (fun dd hdd => hdirs dd (List.mem_cons_of_mem _ hdd))
    obtain ⟨tl, htl⟩ := Option.isSome_iff_exists.mp h2
    unfold pmLoop
    rw [hpr]
    dsimp only
    rw [htl]
    rfl

/-- With fuel exceeding the number of opponent pieces, `possible_moves` on an
occupied cell never returns `none`: it cannot raise (the queried cell is
occupied, every chained query lands on the just-moved piece, every simulated
move is a guarded capture or step), and the fuel cannot run out because every
chained level removes one opponent piece. -/
theorem possible_moves_isSome_of_occupied :
    ∀ (fuel : Nat) (b : Board) (pc : Color) (row col : Int) (chaining : Bool),
      colorCount b (Color.opp pc) < fuel →
      (getCell b row col).isSome = true →
      (possible_moves b pc row col chaining fuel).isSome = true := by
  intro fuel
  induction fuel with
  | zero =>
    intro b pc row col ch hcnt _
    exact absurd hcnt (Nat.not_lt_zero _)
  | succ n ih =>
    intro b pc row col ch hcnt hor
    obtain ⟨p0, hp0⟩ := Option.isSome_iff_exists.mp hor
    have hloop := pmLoop_isSome (fun b2 r2 c2 => possible_moves b2 pc r2 c2 true n)
      b pc row col ch n
      (fun b2 r2 c2 hc2 ho2 => ih b2 pc r2 c2 true hc2 ho2)
      (by omega) hor
    unfold possible_moves
    rw [hp0]
    dsimp only
    have hd1 : ∀ dd ∈ ([(-1, -1), (-1, 1), (1, -1), (1, 1)] : List (Int × Int)),
        dd.1 = 1 ∨ dd.1 = -1 := by decide
    have hd2 : ∀ dd ∈ ([(-1, -1), (-1, 1)] : List (Int × Int)),
        dd.1 = 1 ∨ dd.1 = -1 := by decide
    have hd3 : ∀ dd ∈ ([(1, -1), (1, 1)] : List (Int × Int)),
        dd.1 = 1 ∨ dd.1 = -1 := by decide
    have hdAll : ∀ dd ∈ (if p0.king = true then
          ([(-1, -1), (-1, 1), (1, -1), (1, 1)] : List (Int × Int))
        else if pc = Color.white then [(-1, -1), (-1, 1)] else [(1, -1), (1, 1)]),
        dd.1 = 1 ∨ dd.1 = -1 := by
      split_ifs
      · exact hd1
      · exact hd2
      · exact hd3
    obtain ⟨acc, hacc⟩ := Option.isSome_iff_exists.mp (hloop _ hdAll)
    rw [hacc]
    dsimp only
    split <;> rfl

/-- Every destination recorded by one direction step lies within the board:
candidates are appended only behind an `is_within_board` check. -/
theorem pmDir_dest (recur : Board → Int → Int → Option (List Move)) (b : Board)
    (pc : Color) (row col : Int) (chaining : Bool) (dr dc : Int)
    (res : List Move × List Move)
    (hrecD : ∀ (b2 : Board) (r2 c2 : Int) (ms2 : List Move), recur b2 r2 c2 = some ms2 →
      ∀ mv ∈ ms2, is_within_board mv.2.1.1 mv.2.1.2 = true)
    (h : pmDir recur b pc row col chaining dr dc = some res) :
    (∀ mv ∈ res.1, is_within_board mv.2.1.1 mv.2.1.2 = true) ∧
    (∀ mv ∈ res.2, is_within_board mv.2.1.1 mv.2.1.2 = true) := by
  unfold pmDir at h
  dsimp only at h
  split at h
  · next hwb =>
    cases hg : getCell b (row + dr) (col + dc) with
    | none =>
      rw [hg] at h
      dsimp only at h
      split at h
      · rw [simulate_move_false] at h
        have hres := Option.some.inj h
        subst hres
        refine ⟨fun mv hmv => absurd hmv (List.not_mem_nil mv), fun mv hmv => ?_⟩
        rcases List.mem_singleton.mp hmv with rfl
        exact hwb
      · have hres := Option.some.inj h
        subst hres
        exact ⟨fun mv hmv => absurd hmv (List.not_mem_nil mv),
          fun mv hmv => absurd hmv (List.not_mem_nil mv)⟩
    | some q =>
      rw [hg] at h
      dsimp only at h
      split at h
      · have hres := Option.some.inj h
        subst hres
        exact ⟨fun mv hmv => absurd hmv (List.not_mem_nil mv),
          fun mv hmv => absurd hmv (List.not_mem_nil mv)⟩
      · split at h
        · next hjc =>
          obtain ⟨hjin, _⟩ := hjc
          cases hsim : simulate_move b row col (row + dr + dr) (col + dc + dc) true with
          | none =>
            rw [hsim] at h
            exact Option.noConfusion h
          | some temp =>
            rw [hsim] at h
            dsimp only at h
            cases hrecv : recur temp (row + dr + dr) (col + dc + dc) with
            | none =>
              rw [hrecv] at h
              exact Option.noConfusion h
            | some fj =>
              rw [hrecv] at h
              dsimp only at h
              have hres := Option.some.inj h
              subst hres
              refine ⟨fun mv hmv => ?_, fun mv hmv => absurd hmv (List.not_mem_nil mv)⟩
              rcases List.mem_cons.mp hmv with rfl | hmv2
              · exact hjin
              · exact hrecD temp (row + dr + dr) (col + dc + dc) fj hrecv mv hmv2
        · have hres := Option.some.inj h
          subst hres
          exact ⟨fun mv hmv => absurd hmv (List.not_mem_nil mv),
            fun mv hmv => absurd hmv (List.not_mem_nil mv)⟩
  · have hres := Option.some.inj h
    subst hres
    exact ⟨fun mv hmv => absurd hmv (List.not_mem_nil mv),
      fun mv hmv => absurd hmv (List.not_mem_nil mv)⟩

theorem pmLoop_dest (recur : Board → Int → Int → Option (List Move)) (b : Board)
    (pc : Color) (row col : Int) (chaining : Bool)
    (hrecD : ∀ (b2 : Board) (r2 c2 : Int) (ms2 : List Move), recur b2 r2 c2 = some ms2 →
      ∀ mv ∈ ms2, is_within_board mv.2.1.1 mv.2.1.2 = true) :
    ∀ (dirs : List (Int × Int)) (res : List Move × List Move),
      pmLoop recur b pc row col chaining dirs = some res →
      (∀ mv ∈ res.1, is_within_board mv.2.1.1 mv.2.1.2 = true) ∧
      (∀ mv ∈ res.2, is_within_board mv.2.1.1 mv.2.1.2 = true) := by
  intro dirs
  induction dirs with
  | nil =>
    intro res h
    have hres := Option.some.inj h
    subst hres
    exact ⟨fun mv hmv => absurd hmv (List.not_mem_nil mv),
      fun mv hmv => absurd hmv (List.not_mem_nil mv)⟩
  | cons hd rest ih =>
    intro res h
    obtain ⟨dr, dc⟩ := hd
    unfold pmLoop at h
    cases hpd : pmDir recur b pc row col chaining dr dc with
    | none =>
      rw [hpd] at h
      exact Option.noConfusion h
    | some pr =>
      rw [hpd] at h
      dsimp only at h
      cases hpl : pmLoop recur b pc row col chaining rest with
      | none =>
        rw [hpl] at h
        exact Option.noConfusion h
      | some tl =>
        rw [hpl] at h
        dsimp only at h
        have hres := Option.some.inj h
        subst hres
        obtain ⟨hc1, hn1⟩ := pmDir_dest recur b pc row col chaining dr dc pr hrecD hpd
        obtain ⟨hc2, hn2⟩ := ih tl hpl
        constructor
        · intro mv hmv
          rcases List.mem_append.mp hmv with hmv1 | hmv2
          · exact hc1 mv hmv1
          · exact hc2 mv hmv2
        · intro mv hmv
          rcases List.mem_append.mp hmv with hmv1 | hmv2
          · exact hn1 mv hmv1
          · exact hn2 mv hmv2

theorem possible_moves_dest_within :
    ∀ (fuel : Nat) (b : Board) (pc : Color) (row col : Int) (chaining : Bool)
      (ms : List Move),
      possible_moves b pc row col chaining fuel = some ms →
      ∀ mv ∈ ms, is_within_board mv.2.1.1 mv.2.1.2 = true := by
  intro fuel
  induction fuel with
  | zero =>
    intro b pc row col ch ms h
    exact Option.noConfusion h
  | succ n ih =>
    intro b pc row col ch ms h
    unfold possible_moves at h
    cases hg : getCell b row col with
    | none =>
      rw [hg] at h
      exact Option.noConfusion h
    | some piece =>
      rw [hg] at h
      dsimp only at h
      cases hpl : pmLoop (fun b2 r2 c2 => possible_moves b2 pc r2 c2 true n) b pc row col ch
          (if piece.king = true then [(-1, -1), (-1, 1), (1, -1), (1, 1)]
           else if pc = Color.white then [(-1, -1), (-1, 1)] else [(1, -1), (1, 1)]) with
      | none =>
        rw [hpl] at h
        exact Option.noConfusion h
      | some acc =>
        rw [hpl] at h
        dsimp only at h
        obtain ⟨hc, hn⟩ := pmLoop_dest (fun b2 r2 c2 => possible_moves b2 pc r2 c2 true n)
          b pc row col ch (fun b2 r2 c2 ms2 h2 => ih b2 pc r2 c2 true ms2 h2) _ acc hpl
        split at h
        · have hres := Option.some.inj h
          subst hres
          exact hc
        · have hres := Option.some.inj h
          subst hres
          intro mv hmv
          rcases List.mem_append.mp hmv with hmv1 | hmv2
          · exact hc mv hmv1
          · exact hn mv hmv2

/-- C4 (amended): out-of-board coordinates are silently filtered by the
bounds checks — every candidate move returned lands within the board — and
querying an occupied cell never fails (given fuel above the 64-cell bound);
but querying a cell holding no piece raises (`None.isupper()`), rather than
returning an empty list: the engine relies on its callers
(`generate_moves_for_color`) to query only occupied cells of the moving
color. -/
theorem C4_generator_on_occupied (fuel : Nat) (b : Board) (pc : Color) (row col : Int)
    (chaining : Bool) (hfuel : 64 < fuel) (hocc : (getCell b row col).isSome = true) :
    ∃ ms : List Move, possible_moves b pc row col chaining fuel = some ms ∧
      ∀ mv ∈ ms, is_within_board mv.2.1.1 mv.2.1.2 = true := by
  have h1 := possible_moves_isSome_of_occupied fuel b pc row col chaining
    (lt_of_le_of_lt (colorCount_le_64 b (Color.opp pc)) hfuel) hocc
  obtain ⟨ms, hms⟩ := Option.isSome_iff_exists.mp h1
  exact ⟨ms, hms, possible_moves_dest_within fuel b pc row col chaining ms hms⟩

/-- C4 witness: the occupied cell (2,1) of `boardB1` yields a list (no
failure) whose destinations all lie on the board. -/
theorem C4_generator_on_occupied_witness :
    ∃ ms : List Move, possible_moves boardB1 Color.black 2 1 false 65 = some ms ∧
      ∀ mv ∈ ms, is_within_board mv.2.1.1 mv.2.1.2 = true :=
  C4_generator_on_occupied 65 boardB1 Color.black 2 1 false (by omega) (by decide)

/-! ### Order lemmas for `Score` -/

theorem Score.ble_refl (a : Score) : Score.ble a a = true := by
  cases a <;> simp [Score.ble]

theorem Score.ble_trans {a b c : Score} (h1 : Score.ble a b = true)
    (h2 : Score.ble b c = true) : Score.ble a c = true := by
  cases a <;> cases b <;> cases c <;> (simp_all [Score.ble]; try omega)

theorem Score.ble_total {a b : Score} (h : Score.ble a b = false) :
    Score.ble b a = true := by
  cases a <;> cases b <;> (simp_all [Score.ble]; try omega)

theorem Score.ble_antisymm {a b : Score} (h1 : Score.ble a b = true)
    (h2 : Score.ble b a = true) : a = b := by
  cases a <;> cases b <;> (simp_all [Score.ble]; try omega)

theorem Score.negInf_ble (a : Score) : Score.ble Score.negInf a = true := rfl

theorem Score.ble_posInf (a : Score) : Score.ble a Score.posInf = true := by
  cases a <;> rfl

theorem Score.eq_negInf_of_ble {a : Score} (h : Score.ble a Score.negInf = true) :
    a = Score.negInf := by
  cases a <;> simp_all [Score.ble]

theorem Score.eq_posInf_of_ble {a : Score} (h : Score.ble Score.posInf a = true) :
    a = Score.posInf := by
  cases a <;> simp_all [Score.ble]

theorem Score.max_cases (a b : Score) : Score.max a b = a ∨ Score.max a b = b := by
  unfold Score.max
  split
  · exact Or.inl rfl
  · exact Or.inr rfl

theorem Score.ble_max_left (a b : Score) : Score.ble a (Score.max a b) = true := by
  unfold Score.max
  split
  · exact Score.ble_refl a
  · next h => exact Score.ble_total (by simpa using h)

theorem Score.ble_max_right (a b : Score) : Score.ble b (Score.max a b) = true := by
  unfold Score.max
  split
  · next h => exact h
  · exact Score.ble_refl b

theorem Score.max_ble {a b c : Score} (h1 : Score.ble a c = true)
    (h2 : Score.ble b c = true) : Score.ble (Score.max a b) c = true := by
  rcases Score.max_cases a b with h | h <;> rw [h]
  · exact h1
  · exact h2

theorem Score.max_negInf_right (a : Score) : Score.max a Score.negInf = a := by
  unfold Score.max
  rw [if_pos (Score.negInf_ble a)]

theorem Score.max_eq_left {a b : Score} (h : Score.ble b a = true) :
    Score.max a b = a := by
  unfold Score.max
  rw [if_pos h]

theorem Score.max_eq_right {a b : Score} (h : Score.ble a b = true) :
    Score.max a b = b := by
  unfold Score.max
  rcases hb : Score.ble b a with _ | _
  · simp [hb]
  · rw [if_pos rfl]
    exact Score.ble_antisymm h hb

theorem Score.max_assoc (a b c : Score) :
    Score.max (Score.max a b) c = Score.max a (Score.max b c) := by
  apply Score.ble_antisymm
  · apply Score.max_ble
    · apply Score.max_ble
      · exact Score.ble_max_left a (Score.max b c)
      · exact Score.ble_trans (Score.ble_max_left b c) (Score.ble_max_right a (Score.max b c))
    · exact Score.ble_trans (Score.ble_max_right b c) (Score.ble_max_right a (Score.max b c))
  · apply Score.max_ble
    · exact Score.ble_trans (Score.ble_max_left a b)
        (Score.ble_max_left (Score.max a b) c)
    · apply Score.max_ble
      · exact Score.ble_trans (Score.ble_max_right a b)
          (Score.ble_max_left (Score.max a b) c)
      · exact Score.ble_max_right (Score.max a b) c

theorem Score.min_cases (a b : Score) : Score.min a b = a ∨ Score.min a b = b := by
  unfold Score.min
  split
  · exact Or.inl rfl
  · exact Or.inr rfl

theorem Score.min_ble_left (a b : Score) : Score.ble (Score.min a b) a = true := by
  unfold Score.min
  split
  · exact Score.ble_refl a
  · next h => exact Score.ble_total (by simpa using h)

theorem Score.min_ble_right (a b : Score) : Score.ble (Score.min a b) b = true := by
  unfold Score.min
  split
  · next h => exact h
  · exact Score.ble_refl b

theorem Score.ble_min {a b c : Score} (h1 : Score.ble c a = true)
    (h2 : Score.ble c b = true) : Score.ble c (Score.min a b) = true := by
  rcases Score.min_cases a b with h | h <;> rw [h]
  · exact h1
  · exact h2

theorem Score.min_posInf_right (a : Score) : Score.min a Score.posInf = a := by
  unfold Score.min
  rw [if_pos (Score.ble_posInf a)]

theorem Score.min_eq_left {a b : Score} (h : Score.ble a b = true) :
    Score.min a b = a := by
  unfold Score.min
  rw [if_pos h]

theorem Score.min_eq_right {a b : Score} (h : Score.ble b a = true) :
    Score.min a b = b := by
  unfold Score.min
  rcases hb : Score.ble a b with _ | _
  · simp [hb]
  · rw [if_pos rfl]
    exact Score.ble_antisymm hb h

theorem Score.min_assoc (a b c : Score) :
    Score.min (Score.min a b) c = Score.min a (Score.min b c) := by
  apply Score.ble_antisymm
  · apply Score.ble_min
    · exact Score.ble_trans (Score.min_ble_left (Score.min a b) c)
        (Score.min_ble_left a b)
    · apply Score.ble_min
      · exact Score.ble_trans (Score.min_ble_left (Score.min a b) c)
          (Score.min_ble_right a b)
      · exact Score.min_ble_right (Score.min a b) c
  · apply Score.ble_min
    · apply Score.ble_min
      · exact Score.min_ble_left a (Score.min b c)
      · exact Score.ble_trans (Score.min_ble_right a (Score.min b c))
          (Score.min_ble_left b c)
    · exact Score.ble_trans (Score.min_ble_right a (Score.min b c))
        (Score.min_ble_right b c)

/-! ### The side-level generator and the search never raise -/

theorem gmLoop_isSome (fuel : Nat) (b : Board) (color : Color) (hfuel : 64 < fuel) :
    ∀ coords : List (Int × Int), (gmLoop fuel b color coords).isSome = true := by
  intro coords
  induction coords with
  | nil => rfl
  | cons hd rest ih =>
    obtain ⟨r, c⟩ := hd
    unfold gmLoop
    cases hg : getCell b r c with
    | none =>
      dsimp only
      exact ih
    | some p =>
      dsimp only
      split
      · have hpm := possible_moves_isSome_of_occupied fuel b color r c false
          (lt_of_le_of_lt (colorCount_le_64 b (Color.opp color)) hfuel)
          (by rw [hg]; rfl)
        obtain ⟨ms, hms⟩ := Option.isSome_iff_exists.mp hpm
        rw [hms]
        dsimp only
        obtain ⟨tl, htl⟩ := Option.isSome_iff_exists.mp ih
        rw [htl]
        rfl
      · exact ih

theorem generate_moves_isSome (fuel : Nat) (b : Board) (color : Color)
    (hfuel : 64 < fuel) : (generate_moves_for_color fuel b color).isSome = true :=
  gmLoop_isSome fuel b color hfuel coordList

theorem mmLoopMax_isSome (recur : Board → Score → Score → Option Score) (beta : Score)
    (hrec : ∀ (c : Board) (a2 b2 : Score), (recur c a2 b2).isSome = true) :
    ∀ (ms : List Move) (max_ev alpha : Score),
      (mmLoopMax recur beta ms max_ev alpha).isSome = true := by
  intro ms
  induction ms with
  | nil => intro m a; rfl
  | cons hd rest ih =>
    intro m a
    obtain ⟨x, y, child⟩ := hd
    unfold mmLoopMax
    obtain ⟨ev, hev⟩ := Option.isSome_iff_exists.mp (hrec child a beta)
    rw [hev]
    dsimp only
    split
    · rfl
    · exact ih _ _

theorem mmLoopMin_isSome (recur : Board → Score → Score → Option Score) (alpha : Score)
    (hrec : ∀ (c : Board) (a2 b2 : Score), (recur c a2 b2).isSome = true) :
    ∀ (ms : List Move) (min_ev beta : Score),
      (mmLoopMin recur alpha ms min_ev beta).isSome = true := by
  intro ms
  induction ms with
  | nil => intro m be; rfl
  | cons hd rest ih =>
    intro m be
    obtain ⟨x, y, child⟩ := hd
    unfold mmLoopMin
    obtain ⟨ev, hev⟩ := Option.isSome_iff_exists.mp (hrec child alpha be)
    rw [hev]
    dsimp only
    split
    · rfl
    · exact ih _ _

theorem minimax_isSome (fuel : Nat) (hfuel : 64 < fuel) :
    ∀ (d : Nat) (b : Board) (alpha beta : Score) (mx : Bool),
      (minimax fuel d b alpha beta mx).isSome = true := by
  intro d
  induction d with
  | zero => intro b a be mx; rfl
  | succ n ih =>
    intro b a be mx
    cases mx with
    | true =>
      simp only [minimax, if_true]
      obtain ⟨children, hch⟩ := Option.isSome_iff_exists.mp
        (generate_moves_isSome fuel b Color.white hfuel)
      rw [hch]
      dsimp only
      exact mmLoopMax_isSome _ be (fun c a2 b2 => ih c a2 b2 false) children Score.negInf a
    | false =>
      simp only [minimax, Bool.false_eq_true, if_false]
      obtain ⟨children, hch⟩ := Option.isSome_iff_exists.mp
        (generate_moves_isSome fuel b Color.black hfuel)
      rw [hch]
      dsimp only
      exact mmLoopMin_isSome _ a (fun c a2 b2 => ih c a2 b2 true) children Score.posInf be

theorem Score.ble_lt_trans {bs s0 s : Score} (h1 : Score.ble s0 bs = false)
    (h2 : Score.ble s s0 = false) : Score.ble s bs = false := by
  cases h : Score.ble s bs with
  | false => rfl
  | true =>
    have h3 := Score.ble_trans (Score.ble_total h2) h
    rw [h3] at h1
    exact Bool.noConfusion h1

theorem Score.ble_le_lt {bs s0 s : Score} (h1 : Score.ble s0 bs = true)
    (h2 : Score.ble s bs = false) : Score.ble s s0 = false := by
  cases h : Score.ble s s0 with
  | false => rfl
  | true =>
    have h3 := Score.ble_trans h h1
    rw [h3] at h2
    exact Bool.noConfusion h2

theorem Score.bgt_eq_true {a b : Score} : Score.bgt a b = true ↔ Score.ble a b = false := by
  unfold Score.bgt
  cases Score.ble a b <;> simp

/-- Behaviour of the `score > best_score` selection loop of `ai_move`: either
no element ever strictly beats the running best score (the incoming best is
kept), or the result is the first element attaining the maximum score. -/
theorem aiLoop_spec (fuel depth : Nat) (hfuel : 64 < fuel) :
    ∀ (ms : List Move) (bs : Score) (best : Option Move),
      ∃ r, aiLoop fuel depth ms bs best = some r ∧
        ((r = best ∧ ∀ m ∈ ms, ∃ s,
            minimax fuel depth m.2.2 Score.negInf Score.posInf false = some s ∧
            Score.ble s bs = true) ∨
         (∃ pre mv post s, r = some mv ∧ ms = pre ++ mv :: post ∧
            minimax fuel depth mv.2.2 Score.negInf Score.posInf false = some s ∧
            Score.ble s bs = false ∧
            (∀ m ∈ pre, ∃ s2,
              minimax fuel depth m.2.2 Score.negInf Score.posInf false = some s2 ∧
              Score.ble s s2 = false) ∧
            (∀ m ∈ post, ∃ s2,
              minimax fuel depth m.2.2 Score.negInf Score.posInf false = some s2 ∧
              Score.ble s2 s = true))) := by
  intro ms
  induction ms with
  | nil =>
    intro bs best
    exact ⟨best, rfl, Or.inl ⟨rfl, fun m hm => absurd hm (List.not_mem_nil m)⟩⟩
  | cons m0 rest ih =>
    intro bs best
    obtain ⟨s0, hs0⟩ := Option.isSome_iff_exists.mp
      (minimax_isSome fuel hfuel depth m0.2.2 Score.negInf Score.posInf false)
    unfold aiLoop
    rw [hs0]
    dsimp only
    by_cases hgt : Score.bgt s0 bs = true
    · rw [if_pos hgt]
      have hbs : Score.ble s0 bs = false := Score.bgt_eq_true.mp hgt
      obtain ⟨r, hr, hcase⟩ := ih s0 (some m0)
      refine ⟨r, hr, Or.inr ?_⟩
      rcases hcase with ⟨hrb, hall⟩ | ⟨pre, mv, post, s, hrmv, hrest, hmm, hsgt, hpre, hpost⟩
      · exact ⟨[], m0, rest, s0, by rw [hrb], rfl, hs0, hbs,
          fun m hm => absurd hm (List.not_mem_nil m), hall⟩
      · refine ⟨m0 :: pre, mv, post, s, hrmv, by rw [hrest]; rfl, hmm,
          Score.ble_lt_trans hbs hsgt, ?_, hpost⟩
        intro m hm
        rcases List.mem_cons.mp hm with rfl | hm2
        · exact ⟨s0, hs0, hsgt⟩
        · exact hpre m hm2
    · rw [if_neg hgt]
      have hle : Score.ble s0 bs = true := by
        cases hb0 : Score.ble s0 bs with
        | true => rfl
        | false => exact absurd (Score.bgt_eq_true.mpr hb0) hgt
      obtain ⟨r, hr, hcase⟩ := ih bs best
      refine ⟨r, hr, ?_⟩
      rcases hcase with ⟨hrb, hall⟩ | ⟨pre, mv, post, s, hrmv, hrest, hmm, hsgt, hpre, hpost⟩
      · refine Or.inl ⟨hrb, fun m hm => ?_⟩
        rcases List.mem_cons.mp hm with rfl | hm2
        · exact ⟨s0, hs0, hle⟩
        · exact hall m hm2
      · refine Or.inr ⟨m0 :: pre, mv, post, s, hrmv, by rw [hrest]; rfl, hmm, hsgt, ?_,
          hpost⟩
        intro m hm
        rcases List.mem_cons.mp hm with rfl | hm2
        · exact ⟨s0, hs0, Score.ble_le_lt hle hsgt⟩
        · exact hpre m hm2

/-- C6 (amended): `ai_move` applies no move exactly when the white move list
is empty or every move's search score is `float('-inf')` (the loop's initial
`best_score`, which a score must strictly exceed to be picked — a board
where every reply loses all pieces triggers the second case).  When some move
scores above `-inf`, the first move in generation order achieving the maximum
score is selected: earlier moves score strictly below it, later moves at most
it. -/
theorem C6_ai_move_spec (fuel : Nat) (b : Board) (depth : Nat) (ms : List Move)
    (hfuel : 64 < fuel)
    (hgen : generate_moves_for_color fuel b Color.white = some ms) :
    ∃ r, ai_move fuel b depth = some r ∧
      (r = none ↔ ∀ m ∈ ms,
        minimax fuel depth m.2.2 Score.negInf Score.posInf false = some Score.negInf) ∧
      (∀ mv, r = some mv → ∃ pre post s, ms = pre ++ mv :: post ∧
        minimax fuel depth mv.2.2 Score.negInf Score.posInf false = some s ∧
        s ≠ Score.negInf ∧
        (∀ m ∈ pre, ∃ s2,
          minimax fuel depth m.2.2 Score.negInf Score.posInf false = some s2 ∧
          Score.ble s s2 = false) ∧
        (∀ m ∈ post, ∃ s2,
          minimax fuel depth m.2.2 Score.negInf Score.posInf false = some s2 ∧
          Score.ble s2 s = true)) := by
  unfold ai_move
  rw [hgen]
  dsimp only
  by_cases hemp : ms.isEmpty = true
  · rw [if_pos hemp]
    have hnil : ms = [] := List.isEmpty_iff.mp hemp
    refine ⟨none, rfl, ?_, ?_⟩
    · constructor
      · intro _ m hm
        rw [hnil] at hm
        exact absurd hm (List.not_mem_nil m)
      · intro _
        rfl
    · intro mv hmv
      exact Option.noConfusion hmv
  · rw [if_neg hemp]
    obtain ⟨r, hr, hcase⟩ := aiLoop_spec fuel depth hfuel ms Score.negInf none
    refine ⟨r, hr, ?_, ?_⟩
    · constructor
      · intro hrn m hm
        rcases hcase with ⟨hrb, hall⟩ | ⟨pre, mv, post, s, hrmv, hrest, hmm, hsgt, hpre, hpost⟩
        · obtain ⟨s, hs, hsle⟩ := hall m hm
          rw [Score.eq_negInf_of_ble hsle] at hs
          exact hs
        · rw [hrmv] at hrn
          exact Option.noConfusion hrn
      · intro hall
        rcases hcase with ⟨hrb, _⟩ | ⟨pre, mv, post, s, hrmv, hrest, hmm, hsgt, hpre, hpost⟩
        · exact hrb
        · have hmv_mem : mv ∈ ms := by
            rw [hrest]
            exact List.mem_append.mpr (Or.inr (List.mem_cons_self _ _))
          have hsn := Option.some.inj ((hmm.symm).trans (hall mv hmv_mem))
          rw [hsn, Score.negInf_ble] at hsgt
          exact Bool.noConfusion hsgt
    · intro mv hrmv
      rcases hcase with ⟨hrb, hall⟩ | ⟨pre, mv', post, s, hrmv', hrest, hmm, hsgt, hpre, hpost⟩
      · rw [hrb] at hrmv
        exact Option.noConfusion hrmv
      · have hmveq : mv' = mv := Option.some.inj ((hrmv'.symm).trans hrmv)
        subst hmveq
        refine ⟨pre, post, s, hrest, hmm, ?_, hpre, hpost⟩
        intro hs
        rw [hs, Score.negInf_ble] at hsgt
        exact Bool.noConfusion hsgt

/-- C6 witness: a lone white man at (1,2) with search depth 0 — `ai_move`
returns its first generated move, which scores above `-inf`. -/
theorem C6_ai_move_spec_witness :
    64 < 65 ∧
    (∃ r, ai_move 65 boardB5w 0 = some r ∧
      (r = none ↔ ∀ m ∈ (generate_moves_for_color 65 boardB5w Color.white).getD [],
        minimax 65 0 m.2.2 Score.negInf Score.posInf false = some Score.negInf) ∧
      (∀ mv, r = some mv → ∃ pre post s,
        (generate_moves_for_color 65 boardB5w Color.white).getD [] = pre ++ mv :: post ∧
        minimax 65 0 mv.2.2 Score.negInf Score.posInf false = some s ∧
        s ≠ Score.negInf ∧
        (∀ m ∈ pre, ∃ s2,
          minimax 65 0 m.2.2 Score.negInf Score.posInf false = some s2 ∧
          Score.ble s s2 = false) ∧
        (∀ m ∈ post, ∃ s2,
          minimax 65 0 m.2.2 Score.negInf Score.posInf false = some s2 ∧
          Score.ble s2 s = true))) :=
  ⟨by omega, C6_ai_move_spec 65 boardB5w 0
    ((generate_moves_for_color 65 boardB5w Color.white).getD []) (by omega) rfl⟩

/-! ### Alpha-beta pruning returns the unpruned minimax value -/

theorem umLoopMax_ge (urecur : Board → Option Score)
    (hu : ∀ c : Board, (urecur c).isSome = true) :
    ∀ (ms : List Move) (acc : Score),
      ∃ t, umLoopMax urecur ms acc = some t ∧ Score.ble acc t = true := by
  intro ms
  induction ms with
  | nil => intro acc; exact ⟨acc, rfl, Score.ble_refl acc⟩
  | cons hd rest ih =>
    intro acc
    obtain ⟨x, y, child⟩ := hd
    obtain ⟨v, hv⟩ := Option.isSome_iff_exists.mp (hu child)
    obtain ⟨t, ht, hacc⟩ := ih (Score.max acc v)
    unfold umLoopMax
    rw [hv]
    dsimp only
    exact ⟨t, ht, Score.ble_trans (Score.ble_max_left acc v) hacc⟩

theorem umLoopMin_le (urecur : Board → Option Score)
    (hu : ∀ c : Board, (urecur c).isSome = true) :
    ∀ (ms : List Move) (acc : Score),
      ∃ t, umLoopMin urecur ms acc = some t ∧ Score.ble t acc = true := by
  intro ms
  induction ms with
  | nil => intro acc; exact ⟨acc, rfl, Score.ble_refl acc⟩
  | cons hd rest ih =>
    intro acc
    obtain ⟨x, y, child⟩ := hd
    obtain ⟨v, hv⟩ := Option.isSome_iff_exists.mp (hu child)
    obtain ⟨t, ht, hacc⟩ := ih (Score.min acc v)
    unfold umLoopMin
    rw [hv]
    dsimp only
    exact ⟨t, ht, Score.ble_trans hacc (Score.min_ble_left acc v)⟩

theorem minimax_full_isSome (fuel : Nat) (hfuel : 64 < fuel) :
    ∀ (d : Nat) (b : Board) (mx : Bool), (minimax_full fuel d b mx).isSome = true := by
  intro d
  induction d with
  | zero => intro b mx; rfl
  | succ n ih =>
    intro b mx
    cases mx with
    | true =>
      simp only [minimax_full, if_true]
      obtain ⟨children, hch⟩ := Option.isSome_iff_exists.mp
        (generate_moves_isSome fuel b Color.white hfuel)
      rw [hch]
      dsimp only
      obtain ⟨t, ht, _⟩ := umLoopMax_ge (fun c => minimax_full fuel n c false)
        (fun c => ih c false) children Score.negInf
      rw [ht]
      rfl
    | false =>
      simp only [minimax_full, Bool.false_eq_true, if_false]
      obtain ⟨children, hch⟩ := Option.isSome_iff_exists.mp
        (generate_moves_isSome fuel b Color.black hfuel)
      rw [hch]
      dsimp only
      obtain ⟨t, ht, _⟩ := umLoopMin_le (fun c => minimax_full fuel n c true)
        (fun c => ih c true) children Score.posInf
      rw [ht]
      rfl

/-- Fail-soft correctness of the pruning maximizing loop against the unpruned
maximum: if the final value lies inside the original window it equals the
unpruned value; if it fails low it bounds the unpruned value from above; if
it fails high it bounds it from below. -/
theorem mmLoopMax_spec (recur : Board → Score → Score → Option Score)
    (urecur : Board → Option Score) (beta alpha0 : Score)
    (hax : Score.ble beta alpha0 = false)
    (hu : ∀ c : Board, (urecur c).isSome = true)
    (hrec : ∀ (c : Board) (a : Score), Score.ble beta a = false →
      ∃ v t, recur c a beta = some v ∧ urecur c = some t ∧
        (Score.ble v a = true → Score.ble t v = true) ∧
        (Score.ble beta v = true → Score.ble v t = true) ∧
        (Score.ble v a = false → Score.ble beta v = false → v = t)) :
    ∀ (ms : List Move) (m alpha tacc : Score),
      Score.ble beta alpha = false →
      alpha = Score.max alpha0 m →
      (Score.ble m alpha0 = true → Score.ble tacc m = true) →
      (Score.ble m alpha0 = false → m = tacc) →
      ∃ v t, mmLoopMax recur beta ms m alpha = some v ∧
        umLoopMax urecur ms tacc = some t ∧
        (Score.ble v alpha0 = true → Score.ble t v = true) ∧
        (Score.ble beta v = true → Score.ble v t = true) ∧
        (Score.ble v alpha0 = false → Score.ble beta v = false → v = t) := by
  intro ms
  induction ms with
  | nil =>
    intro m alpha tacc hab halpha hm1 hm2
    refine ⟨m, tacc, rfl, rfl, hm1, ?_, fun h1 _ => hm2 h1⟩
    intro hbm
    have hma : Score.ble m alpha = true := halpha ▸ Score.ble_max_right alpha0 m
    have hba := Score.ble_trans hbm hma
    rw [hba] at hab
    exact Bool.noConfusion hab
  | cons hd rest ih =>
    intro m alpha tacc hab halpha hm1 hm2
    obtain ⟨x, y, child⟩ := hd
    obtain ⟨v_c, t_c, hvc, htc, g1, g2, g3⟩ := hrec child alpha hab
    unfold mmLoopMax
    rw [hvc]
    dsimp only
    have halpha2 : Score.max alpha v_c = Score.max alpha0 (Score.max m v_c) := by
      rw [halpha, Score.max_assoc]
    by_cases hcut : Score.ble beta (Score.max alpha v_c) = true
    · rw [if_pos hcut]
      have hMa0 : Score.ble (Score.max m v_c) alpha0 = false := by
        cases hq : Score.ble (Score.max m v_c) alpha0 with
        | false => rfl
        | true =>
          have hmx : Score.max alpha0 (Score.max m v_c) = alpha0 := Score.max_eq_left hq
          rw [halpha2, hmx] at hcut
          rw [hcut] at hax
          exact Bool.noConfusion hax
      have hbM : Score.ble beta (Score.max m v_c) = true := by
        rcases Score.max_cases alpha0 (Score.max m v_c) with hmx | hmx
        · rw [halpha2, hmx] at hcut
          rw [hcut] at hax
          exact Bool.noConfusion hax
        · rw [halpha2, hmx] at hcut
          exact hcut
      have hbm : Score.ble beta m = false := by
        cases hq : Score.ble beta m with
        | false => rfl
        | true =>
          have hba := Score.ble_trans hq (halpha ▸ Score.ble_max_right alpha0 m)
          rw [hba] at hab
          exact Bool.noConfusion hab
      have hMv : Score.max m v_c = v_c := by
        rcases Score.max_cases m v_c with hmx | hmx
        · rw [hmx] at hbM
          rw [hbM] at hbm
          exact Bool.noConfusion hbm
        · exact hmx
      have hbv : Score.ble beta v_c = true := hMv ▸ hbM
      have hvt : Score.ble v_c t_c = true := g2 hbv
      obtain ⟨t, ht, htacc⟩ := umLoopMax_ge urecur hu rest (Score.max tacc t_c)
      refine ⟨Score.max m v_c, t, rfl, ?_, ?_, ?_, ?_⟩
      · unfold umLoopMax
        rw [htc]
        exact ht
      · intro hfirst
        rw [hfirst] at hMa0
        exact Bool.noConfusion hMa0
      · intro _
        rw [hMv]
        exact Score.ble_trans hvt (Score.ble_trans (Score.ble_max_right tacc t_c) htacc)
      · intro _ h2
        rw [hbM] at h2
        exact Bool.noConfusion h2
    · rw [if_neg hcut]
      have hcut2 : Score.ble beta (Score.max alpha v_c) = false := by
        cases hq : Score.ble beta (Score.max alpha v_c) with
        | false => rfl
        | true => exact absurd hq hcut
      have hm1' : Score.ble (Score.max m v_c) alpha0 = true →
          Score.ble (Score.max tacc t_c) (Score.max m v_c) = true := by
        intro hM
        have hma0 : Score.ble m alpha0 = true :=
          Score.ble_trans (Score.ble_max_left m v_c) hM
        have hva0 : Score.ble v_c alpha0 = true :=
          Score.ble_trans (Score.ble_max_right m v_c) hM
        have hva : Score.ble v_c alpha = true :=
          Score.ble_trans hva0 (halpha ▸ Score.ble_max_left alpha0 m)
        have htcv : Score.ble t_c v_c = true := g1 hva
        apply Score.max_ble
        · exact Score.ble_trans (hm1 hma0) (Score.ble_max_left m v_c)
        · exact Score.ble_trans htcv (Score.ble_max_right m v_c)
      have hm2' : Score.ble (Score.max m v_c) alpha0 = false →
          Score.max m v_c = Score.max tacc t_c := by
        intro hM
        cases hvm : Score.ble v_c m with
        | true =>
          have hMm : Score.max m v_c = m := Score.max_eq_left hvm
          rw [hMm] at hM ⊢
          have hmt : m = tacc := hm2 hM
          have hva : Score.ble v_c alpha = true :=
            Score.ble_trans hvm (halpha ▸ Score.ble_max_right alpha0 m)
          have htcv : Score.ble t_c v_c = true := g1 hva
          have htcm : Score.ble t_c m = true := Score.ble_trans htcv hvm
          rw [← hmt]
          exact (Score.max_eq_left htcm).symm
        | false =>
          have hMm : Score.max m v_c = v_c := by
            unfold Score.max
            simp [hvm]
          rw [hMm] at hM ⊢
          have hvalpha : Score.ble v_c alpha = false := by
            cases hq : Score.ble v_c alpha with
            | false => rfl
            | true =>
              rw [halpha] at hq
              rcases Score.max_cases alpha0 m with hmx | hmx <;> rw [hmx] at hq
              · rw [hq] at hM
                exact Bool.noConfusion hM
              · rw [hq] at hvm
                exact Bool.noConfusion hvm
          have hbvc : Score.ble beta v_c = false := by
            cases hq : Score.ble beta v_c with
            | false => rfl
            | true =>
              have := Score.ble_trans hq (Score.ble_max_right alpha v_c)
              rw [this] at hcut2
              exact Bool.noConfusion hcut2
          have hveq : v_c = t_c := g3 hvalpha hbvc
          have hmv : Score.ble m v_c = true := Score.ble_total hvm
          have htaccv : Score.ble tacc v_c = true := by
            cases hma : Score.ble m alpha0 with
            | true => exact Score.ble_trans (hm1 hma) hmv
            | false =>
              rw [← hm2 hma]
              exact hmv
          rw [hveq]
          exact (Score.max_eq_right (hveq ▸ htaccv)).symm
      obtain ⟨v, t, hvloop, htloop, i1, i2, i3⟩ := ih (Score.max m v_c)
        (Score.max alpha v_c) (Score.max tacc t_c) hcut2 halpha2 hm1' hm2'
      refine ⟨v, t, hvloop, ?_, i1, i2, i3⟩
      unfold umLoopMax
      rw [htc]
      exact htloop

/-- Dual of `mmLoopMax_spec` for the pruning minimizing loop. -/
theorem mmLoopMin_spec (recur : Board → Score → Score → Option Score)
    (urecur : Board → Option Score) (alpha beta0 : Score)
    (hax : Score.ble beta0 alpha = false)
    (hu : ∀ c : Board, (urecur c).isSome = true)
    (hrec : ∀ (c : Board) (be : Score), Score.ble be alpha = false →
      ∃ v t, recur c alpha be = some v ∧ urecur c = some t ∧
        (Score.ble v alpha = true → Score.ble t v = true) ∧
        (Score.ble be v = true → Score.ble v t = true) ∧
        (Score.ble v alpha = false → Score.ble be v = false → v = t)) :
    ∀ (ms : List Move) (m beta tacc : Score),
      Score.ble beta alpha = false →
      beta = Score.min beta0 m →
      (Score.ble beta0 m = true → Score.ble m tacc = true) →
      (Score.ble beta0 m = false → m = tacc) →
      ∃ v t, mmLoopMin recur alpha ms m beta = some v ∧
        umLoopMin urecur ms tacc = some t ∧
        (Score.ble v alpha = true → Score.ble t v = true) ∧
        (Score.ble beta0 v = true → Score.ble v t = true) ∧
        (Score.ble v alpha = false → Score.ble beta0 v = false → v = t) := by
  intro ms
  induction ms with
  | nil =>
    intro m beta tacc hab hbeta hm1 hm2
    refine ⟨m, tacc, rfl, rfl, ?_, hm1, fun _ h2 => hm2 h2⟩
    intro hma
    have hbm : Score.ble beta m = true := hbeta ▸ Score.min_ble_right beta0 m
    have hba := Score.ble_trans hbm hma
    rw [hba] at hab
    exact Bool.noConfusion hab
  | cons hd rest ih =>
    intro m beta tacc hab hbeta hm1 hm2
    obtain ⟨x, y, child⟩ := hd
    obtain ⟨v_c, t_c, hvc, htc, g1, g2, g3⟩ := hrec child beta hab
    unfold mmLoopMin
    rw [hvc]
    dsimp only
    have hbeta2 : Score.min beta v_c = Score.min beta0 (Score.min m v_c) := by
      rw [hbeta, Score.min_assoc]
    by_cases hcut : Score.ble (Score.min beta v_c) alpha = true
    · rw [if_pos hcut]
      have hMb0 : Score.ble beta0 (Score.min m v_c) = false := by
        cases hq : Score.ble beta0 (Score.min m v_c) with
        | false => rfl
        | true =>
          have hmx : Score.min beta0 (Score.min m v_c) = beta0 := Score.min_eq_left hq
          rw [hbeta2, hmx] at hcut
          rw [hcut] at hax
          exact Bool.noConfusion hax
      have hbM : Score.ble (Score.min m v_c) alpha = true := by
        rcases Score.min_cases beta0 (Score.min m v_c) with hmx | hmx
        · rw [hbeta2, hmx] at hcut
          rw [hcut] at hax
          exact Bool.noConfusion hax
        · rw [hbeta2, hmx] at hcut
          exact hcut
      have hma : Score.ble m alpha = false := by
        cases hq : Score.ble m alpha with
        | false => rfl
        | true =>
          have hba := Score.ble_trans (hbeta ▸ Score.min_ble_right beta0 m) hq
          rw [hba] at hab
          exact Bool.noConfusion hab
      have hMv : Score.min m v_c = v_c := by
        rcases Score.min_cases m v_c with hmx | hmx
        · rw [hmx] at hbM
          rw [hbM] at hma
          exact Bool.noConfusion hma
        · exact hmx
      have hva : Score.ble v_c alpha = true := hMv ▸ hbM
      have htv : Score.ble t_c v_c = true := g1 hva
      obtain ⟨t, ht, htacc⟩ := umLoopMin_le urecur hu rest (Score.min tacc t_c)
      refine ⟨Score.min m v_c, t, rfl, ?_, ?_, ?_, ?_⟩
      · unfold umLoopMin
        rw [htc]
        exact ht
      · intro _
        rw [hMv]
        exact Score.ble_trans (Score.ble_trans htacc (Score.min_ble_right tacc t_c)) htv
      · intro hsecond
        rw [hsecond] at hMb0
        exact Bool.noConfusion hMb0
      · intro h1 _
        rw [hbM] at h1
        exact Bool.noConfusion h1
    · rw [if_neg hcut]
      have hcut2 : Score.ble (Score.min beta v_c) alpha = false := by
        cases hq : Score.ble (Score.min beta v_c) alpha with
        | false => rfl
        | true => exact absurd hq hcut
      have hm1' : Score.ble beta0 (Score.min m v_c) = true →
          Score.ble (Score.min m v_c) (Score.min tacc t_c) = true := by
        intro hM
        have hb0m : Score.ble beta0 m = true :=
          Score.ble_trans hM (Score.min_ble_left m v_c)
        have hb0v : Score.ble beta0 v_c = true :=
          Score.ble_trans hM (Score.min_ble_right m v_c)
        have hbv : Score.ble beta v_c = true :=
          Score.ble_trans (hbeta ▸ Score.min_ble_left beta0 m) hb0v
        have hvt : Score.ble v_c t_c = true := g2 hbv
        apply Score.ble_min
        · exact Score.ble_trans (Score.min_ble_left m v_c) (hm1 hb0m)
        · exact Score.ble_trans (Score.min_ble_right m v_c) hvt
      have hm2' : Score.ble beta0 (Score.min m v_c) = false →
          Score.min m v_c = Score.min tacc t_c := by
        intro hM
        cases hvm : Score.ble m v_c with
        | true =>
          have hMm : Score.min m v_c = m := Score.min_eq_left hvm
          rw [hMm] at hM ⊢
          have hmt : m = tacc := hm2 hM
          have hbv : Score.ble beta v_c = true :=
            Score.ble_trans (hbeta ▸ Score.min_ble_right beta0 m) hvm
          have hvt : Score.ble v_c t_c = true := g2 hbv
          have hmtc : Score.ble m t_c = true := Score.ble_trans hvm hvt
          rw [← hmt]
          exact (Score.min_eq_left hmtc).symm
        | false =>
          have hMm : Score.min m v_c = v_c := by
            unfold Score.min
            simp [hvm]
          rw [hMm] at hM ⊢
          have hbvc : Score.ble beta v_c = false := by
            cases hq : Score.ble beta v_c with
            | false => rfl
            | true =>
              rw [hbeta] at hq
              rcases Score.min_cases beta0 m with hmx | hmx <;> rw [hmx] at hq
              · rw [hq] at hM
                exact Bool.noConfusion hM
              · rw [hq] at hvm
                exact Bool.noConfusion hvm
          have havc : Score.ble v_c alpha = false := by
            cases hq : Score.ble v_c alpha with
            | false => rfl
            | true =>
              have := Score.ble_trans (Score.min_ble_right beta v_c) hq
              rw [this] at hcut2
              exact Bool.noConfusion hcut2
          have hveq : v_c = t_c := g3 havc hbvc
          have hvm' : Score.ble v_c m = true := Score.ble_total hvm
          have htaccv : Score.ble v_c tacc = true := by
            cases hma : Score.ble beta0 m with
            | true => exact Score.ble_trans hvm' (hm1 hma)
            | false =>
              rw [← hm2 hma]
              exact hvm'
          rw [hveq]
          exact (Score.min_eq_right (hveq ▸ htaccv)).symm
      obtain ⟨v, t, hvloop, htloop, i1, i2, i3⟩ := ih (Score.min m v_c)
        (Score.min beta v_c) (Score.min tacc t_c) hcut2 hbeta2 hm1' hm2'
      refine ⟨v, t, hvloop, ?_, i1, i2, i3⟩
      unfold umLoopMin
      rw [htc]
      exact htloop

/-- Fail-soft alpha-beta invariant for the whole search, by induction on
depth: within the window the returned value is the unpruned value; outside
it, it bounds the unpruned value from the failing side. -/
theorem minimax_ab_spec (fuel : Nat) (hfuel : 64 < fuel) :
    ∀ (d : Nat) (b : Board) (alpha beta : Score) (mx : Bool),
      Score.ble beta alpha = false →
      ∃ v t, minimax fuel d b alpha beta mx = some v ∧
        minimax_full fuel d b mx = some t ∧
        (Score.ble v alpha = true → Score.ble t v = true) ∧
        (Score.ble beta v = true → Score.ble v t = true) ∧
        (Score.ble v alpha = false → Score.ble beta v = false → v = t) := by
  intro d
  induction d with
  | zero =>
    intro b alpha beta mx hab
    exact ⟨Score.val (evaluate_board b), Score.val (evaluate_board b), rfl, rfl,
      fun _ => Score.ble_refl _, fun _ => Score.ble_refl _, fun _ _ => rfl⟩
  | succ n ih =>
    intro b alpha beta mx hab
    cases mx with
    | true =>
      obtain ⟨children, hch⟩ := Option.isSome_iff_exists.mp
        (generate_moves_isSome fuel b Color.white hfuel)
      simp only [minimax, minimax_full, if_true]
      rw [hch]
      dsimp only
      exact mmLoopMax_spec (fun c a2 b2 => minimax fuel n c a2 b2 false)
        (fun c => minimax_full fuel n c false) beta alpha hab
        (fun c => minimax_full_isSome fuel hfuel n c false)
        (fun c a ha => ih c a beta false ha)
        children Score.negInf alpha Score.negInf hab
        (Score.max_negInf_right alpha).symm
        (fun _ => rfl)
        (fun h => absurd (Score.negInf_ble alpha) (by rw [h]; exact Bool.false_ne_true))
    | false =>
      obtain ⟨children, hch⟩ := Option.isSome_iff_exists.mp
        (generate_moves_isSome fuel b Color.black hfuel)
      simp only [minimax, minimax_full, Bool.false_eq_true, if_false]
      rw [hch]
      dsimp only
      exact mmLoopMin_spec (fun c a2 b2 => minimax fuel n c a2 b2 true)
        (fun c => minimax_full fuel n c true) alpha beta hab
        (fun c => minimax_full_isSome fuel hfuel n c true)
        (fun c be hb => ih c alpha be true hb)
        children Score.posInf beta Score.posInf hab
        (Score.min_posInf_right beta).symm
        (fun _ => rfl)
        (fun h => absurd (Score.ble_posInf beta) (by rw [h]; exact Bool.false_ne_true))

/-- C7: at the full window `(-inf, +inf)` the alpha-beta search `minimax`
returns exactly the score of the unpruned minimax `minimax_full` of the same
depth over the same game tree, for every board, depth and side to move. -/
theorem C7_alphabeta_eq_full (fuel d : Nat) (b : Board) (mx : Bool)
    (hfuel : 64 < fuel) :
    minimax fuel d b Score.negInf Score.posInf mx = minimax_full fuel d b mx := by
  obtain ⟨v, t, hv, ht, i1, i2, i3⟩ :=
    minimax_ab_spec fuel hfuel d b Score.negInf Score.posInf mx rfl
  rw [hv, ht]
  cases hv1 : Score.ble v Score.negInf with
  | true =>
    have hvn : v = Score.negInf := Score.eq_negInf_of_ble hv1
    have htn : t = Score.negInf := Score.eq_negInf_of_ble (hvn ▸ i1 hv1)
    rw [hvn, htn]
  | false =>
    cases hv2 : Score.ble Score.posInf v with
    | true =>
      have hvp : v = Score.posInf := Score.eq_posInf_of_ble hv2
      have htp : t = Score.posInf := Score.eq_posInf_of_ble (hvp ▸ i2 hv2)
      rw [hvp, htp]
    | false =>
      rw [i3 hv1 hv2]

/-- C7 witness: pruned and unpruned agree at depth 2 on `boardB1`. -/
theorem C7_alphabeta_eq_full_witness :
    minimax 65 2 boardB1 Score.negInf Score.posInf true = minimax_full 65 2 boardB1 true :=
  C7_alphabeta_eq_full 65 2 boardB1 true (by omega)
